/-
Verification of core data structures and algorithms of the nuspell
spell-checking library (src/nuspell/structures.hxx, aff_data.hxx,
dictionary.hxx) against its natural-language specification.

The C++ code is shallowly embedded: wide strings (std::wstring /
std::basic_string<CharT>) become lists of naturals, 16-bit flags
(char16_t) become naturals, in-place mutation becomes explicit value
passing, and functions that throw become Except-valued functions.
Standard-library algorithms (std::sort, std::lower_bound,
std::equal_range, std::find, std::unique) are modelled by their
specified behaviour on the sorted ranges on which the code applies
them.  External collaborators (ICU case conversion, std::hash,
encoding conversion) are parameters of the embedding, exactly as the
specification declares them out of scope.
-/
import Mathlib

set_option autoImplicit false

namespace Nuspell

/-- A 16-bit flag code unit (`char16_t`), modelled as a natural number. -/
abbrev Flag := Nat

/-- A wide character (`wchar_t`), modelled as a natural number (code unit). -/
abbrev WChar := Nat

/-- A wide string (`std::wstring`), modelled as a list of code units. -/
abbrev WStr := List WChar

/-- `Aff_Data::HIDDEN_HOMONYM_FLAG = char16_t(-1)`, the sentinel 0xFFFF. -/
def HIDDEN_HOMONYM_FLAG : Flag := 65535

/-- The first element remaining after `dropWhile` fails the predicate. -/
theorem dropWhile_head_not {α : Type} {p : α → Bool} {l : List α} {y : α} {rest : List α}
    (h : l.dropWhile p = y :: rest) : ¬ p y = true := by
  induction l with
  | nil => simp at h
  | cons a t ih =>
    by_cases hp : p a
    · exact ih (by simpa [List.dropWhile_cons, hp] using h)
    · rw [List.dropWhile_cons, if_neg (by simpa using hp)] at h
      cases h
      simpa using hp

/-!
## String_Set (structures.hxx, lines 63-297)

`String_Set<char16_t>` = `Flag_Set`: a set backed by a sorted string.
The underlying storage `d` is modelled as a `List Flag`; the class
invariant claimed by the spec is strict ascending order (which implies
no duplicates).
-/

namespace StringSet

/-- Models `std::unique` on a range: removes *adjacent* duplicate
elements, as used by `String_Set::sort_uniq` after sorting. -/
def uniqueAdj : List Flag → List Flag
  | [] => []
  | [a] => [a]
  | a :: b :: t => if a = b then uniqueAdj (b :: t) else a :: uniqueAdj (b :: t)

/-- `String_Set::sort_uniq`: sort the backing string (`std::sort`,
modelled by merge sort) and erase adjacent duplicates (`std::unique`). -/
def sort_uniq (d : List Flag) : List Flag :=
  uniqueAdj d.mergeSort

/-- `String_Set::insert(value_type x)` (lines 167-175): locate
`lower_bound(x)` — the first position whose element is not less than
`x` — and, unless that position holds `x` itself, insert `x` there.
`takeWhile`/`dropWhile` of `(· < x)` model the split of the sorted
string at `lower_bound(x)`. -/
def insert (d : List Flag) (x : Flag) : List Flag :=
  let pre := d.takeWhile (fun c => c < x)
  let suf := d.dropWhile (fun c => c < x)
  match suf with
  | [] => pre ++ [x]
  | y :: _ => if y = x then d else pre ++ x :: suf

/-- `String_Set::insert(const Str&)` / `operator+=` (lines 229-238,
set union): append the other string to the storage, then `sort_uniq`. -/
def insert_str (d : List Flag) (s : List Flag) : List Flag :=
  sort_uniq (d ++ s)

/-- `String_Set::erase(key_type x)` (lines 212-220): find the first
occurrence of `x` in the backing string and erase one character. -/
def erase (d : List Flag) (x : Flag) : List Flag :=
  d.erase x

/-- `String_Set::count` / `contains` (lines 257, 288). -/
def contains (d : List Flag) (x : Flag) : Bool :=
  d.contains x

/-- One mutating operation on a flag set: `insert` of a single flag,
`operator+=` of a whole string (set union), or `erase` of a flag. -/
inductive Op
  | ins (f : Flag)
  | uni (s : List Flag)
  | del (f : Flag)

/-- Apply one operation to the underlying storage. -/
def applyOp (d : List Flag) : Op → List Flag
  | .ins f => insert d f
  | .uni s => insert_str d s
  | .del f => erase d f

/-- Apply a sequence of operations. -/
def applyOps (d : List Flag) (ops : List Op) : List Flag :=
  ops.foldl applyOp d

theorem uniqueAdj_sublist : ∀ l : List Flag, (uniqueAdj l).Sublist l
  | [] => by simp [uniqueAdj]
  | [a] => by simp [uniqueAdj]
  | a :: b :: t => by
    rw [uniqueAdj]
    by_cases hab : a = b
    · simp only [if_pos hab]
      exact (uniqueAdj_sublist (b :: t)).cons a
    · simp only [if_neg hab]
      exact (uniqueAdj_sublist (b :: t)).cons₂ a

theorem uniqueAdj_sorted : ∀ {l : List Flag}, l.Sorted (· ≤ ·) →
    (uniqueAdj l).Sorted (· < ·)
  | [], _ => by simp [uniqueAdj]
  | [a], _ => by simp [uniqueAdj]
  | a :: b :: t, h => by
    have hab : a ≤ b := (List.sorted_cons.mp h).1 b (by simp)
    have ht : (b :: t).Sorted (· ≤ ·) := (List.sorted_cons.mp h).2
    have ihs := uniqueAdj_sorted ht
    rw [uniqueAdj]
    by_cases hab' : a = b
    · simpa [hab'] using ihs
    · have hlt : a < b := lt_of_le_of_ne hab hab'
      simp only [if_neg hab']
      refine List.sorted_cons.mpr ⟨?_, ihs⟩
      intro z hz
      have hz' : z ∈ b :: t := (uniqueAdj_sublist (b :: t)).mem hz
      rcases List.mem_cons.mp hz' with h1 | h2
      · exact h1 ▸ hlt
      · exact lt_of_lt_of_le hlt ((List.sorted_cons.mp ht).1 z h2)

theorem sort_uniq_sorted (d : List Flag) : (sort_uniq d).Sorted (· < ·) :=
  uniqueAdj_sorted (List.sorted_mergeSort' d)

theorem insert_sorted {d : List Flag} (x : Flag) (h : d.Sorted (· < ·)) :
    (insert d x).Sorted (· < ·) := by
  unfold insert
  have hpre : (d.takeWhile (fun c => c < x)).Sorted (· < ·) :=
    h.sublist (List.takeWhile_sublist _)
  have hsuf : (d.dropWhile (fun c => c < x)).Sorted (· < ·) :=
    h.sublist (List.dropWhile_sublist _)
  have hprelt : ∀ c ∈ d.takeWhile (fun c => c < x), c < x := by
    intro c hc
    simpa using List.mem_takeWhile_imp hc
  match hd : d.dropWhile (fun c => c < x) with
  | [] =>
    simp only
    rw [List.Sorted, List.pairwise_append]
    refine ⟨hpre, by simp, ?_⟩
    intro a ha b hb
    simp only [List.mem_singleton] at hb
    exact hb ▸ hprelt a ha
  | y :: rest =>
    have hylt : ¬ y < x := by simpa using dropWhile_head_not hd
    by_cases hyx : y = x
    · simpa [hyx] using h
    · simp only [if_neg hyx]
      have hxy : x < y := lt_of_le_of_ne (not_lt.mp hylt) (Ne.symm hyx)
      have hsuf' : (y :: rest).Sorted (· < ·) := hd ▸ hsuf
      rw [List.Sorted, List.pairwise_append]
      refine ⟨hpre, ?_, ?_⟩
      · rw [List.pairwise_cons]
        refine ⟨?_, hsuf'⟩
        intro b hb
        rcases List.mem_cons.mp hb with h1 | h2
        · exact h1 ▸ hxy
        · exact lt_trans hxy ((List.sorted_cons.mp hsuf').1 b h2)
      · intro a ha b hb
        have hax : a < x := hprelt a ha
        rcases List.mem_cons.mp hb with h1 | h2
        · exact h1 ▸ hax
        · rcases List.mem_cons.mp h2 with h3 | h4
          · exact lt_trans hax (h3 ▸ hxy)
          · exact lt_trans hax (lt_trans hxy ((List.sorted_cons.mp hsuf').1 b h4))

theorem erase_sorted {d : List Flag} (x : Flag) (h : d.Sorted (· < ·)) :
    (erase d x).Sorted (· < ·) :=
  h.sublist (List.erase_sublist x d)

theorem applyOp_sorted {d : List Flag} (op : Op) (h : d.Sorted (· < ·)) :
    (applyOp d op).Sorted (· < ·) := by
  cases op with
  | ins f => exact insert_sorted f h
  | uni s => exact sort_uniq_sorted (d ++ s)
  | del f => exact erase_sorted f h

theorem applyOps_sorted {d : List Flag} (ops : List Op) (h : d.Sorted (· < ·)) :
    (applyOps d ops).Sorted (· < ·) := by
  induction ops generalizing d with
  | nil => exact h
  | cons op t ih => exact ih (applyOp_sorted op h)

end StringSet

/-- C5: For every flag set and every sequence of insert, union
(`operator+=` / insert of a string), and erase operations, the
underlying storage remains sorted in ascending flag order and
contains no duplicate flags.  Flag sets are constructed by
`sort_uniq` (all `String_Set` constructors call it) and then evolve
by the three mutating operations. -/
theorem claim_C5_flag_set_sorted_nodup (s0 : List Flag) (ops : List StringSet.Op) :
    (StringSet.applyOps (StringSet.sort_uniq s0) ops).Sorted (· < ·) ∧
    (StringSet.applyOps (StringSet.sort_uniq s0) ops).Nodup := by
  have hs := StringSet.applyOps_sorted ops (StringSet.sort_uniq_sorted s0)
  exact ⟨hs, hs.nodup⟩

/-- C6 (counterexample): inserting flag 97 into the flag set {97} and
then erasing 97 yields the empty set, not the original set: insert is
a no-op on an already-present flag, yet erase removes it. -/
theorem claim_C6_cex_insert_erase_not_id :
    StringSet.erase (StringSet.insert (StringSet.sort_uniq [97]) 97) 97 ≠
      StringSet.sort_uniq [97] := by
  have h1 : StringSet.sort_uniq [97] = [97] := by
    unfold StringSet.sort_uniq
    rw [List.mergeSort_eq_self (by simp)]
    decide
  rw [h1]
  decide

/-- C6 (amended): for every flag set `s` (sorted storage) and every
flag `f` *not already in `s`*, inserting `f` and then erasing `f`
yields a flag set equal to the original `s`. -/
theorem claim_C6_insert_then_erase (d : List Flag) (x : Flag)
    (_hs : d.Sorted (· < ·)) (hx : x ∉ d) :
    StringSet.erase (StringSet.insert d x) x = d := by
  unfold StringSet.insert StringSet.erase
  have hprene : x ∉ d.takeWhile (fun c => decide (c < x)) := by
    intro hmem
    have h1 : x < x := by simpa using List.mem_takeWhile_imp hmem
    exact absurd h1 (lt_irrefl x)
  match hd : d.dropWhile (fun c => decide (c < x)) with
  | [] =>
    simp only
    rw [List.erase_append_right _ hprene, List.erase_cons_head]
    have h2 := List.takeWhile_append_dropWhile (p := fun c => decide (c < x)) (l := d)
    rw [hd] at h2
    simpa using h2
  | y :: rest =>
    have h2 := List.takeWhile_append_dropWhile (p := fun c => decide (c < x)) (l := d)
    rw [hd] at h2
    have hyx : y ≠ x := by
      intro hcontr
      apply hx
      rw [← h2, hcontr]
      simp
    simp only [if_neg hyx]
    rw [List.erase_append_right _ hprene, List.erase_cons_head]
    exact h2

/-- Witness for C6's amended theorem at a concrete input. -/
theorem claim_C6_insert_then_erase_witness :
    StringSet.erase (StringSet.insert [5, 9] 7) 7 = [5, 9] :=
  claim_C6_insert_then_erase [5, 9] 7 (by decide) (by decide)


/-!
## Condition (structures.hxx, lines 653-832)

`Condition<CharT>` compiles a restricted pattern (literals, `.`,
`[...]`, `[^...]`) into a vector of spans at construction time;
malformed patterns throw `Condition_Exception`.
-/

/-- One compiled span of a `Condition` pattern (`Span_Type` plus its
data).  The source stores `(pos, len, type)` indices into the pattern
string `cond`; the model stores the designated substring directly. -/
inductive Span
  | normal (s : WStr)
  | dot
  | any_of (s : WStr)
  | none_of (s : WStr)
deriving DecidableEq

namespace Condition

/-- character code of the opening bracket. -/
def lbC : WChar := 91

/-- character code of the closing bracket. -/
def rbC : WChar := 93

/-- character code of the full stop (wildcard). -/
def dotC : WChar := 46

/-- character code of the caret (negation marker). -/
def caretC : WChar := 94

/-- whether `c` is one of the metacharacters in the literal `"[]."`
used with `find_first_of`. -/
def isMeta (c : WChar) : Bool := c = lbC || c = rbC || c = dotC

/-- whether `c` is an ordinary (non-metacharacter) pattern character. -/
def isOrd (c : WChar) : Bool := ! isMeta c

/-- The body of a bracket class: an optional leading caret selects
NONE_OF and is consumed; otherwise the first character is an ordinary
member. -/
def classBody (d : WChar) (t2 : WStr) : WStr := if d = caretC then t2 else d :: t2

/-- The bracket-class step of `Condition::construct` (lines 752-780):
after the opening bracket, an optional `^` selects NONE_OF; the class
members run to the first `]` (`j = cond.find(']', i)`); the string
ending before `]` or an empty member list is an error.  Returns
(negated, members, rest after the closing bracket) on success. -/
def parseClass : WStr → Option (Bool × WStr × WStr)
  | [] => none
  | d :: t2 =>
    match (classBody d t2).dropWhile (fun x => x ≠ rbC) with
    | [] => none
    | _ :: t4 =>
      if (classBody d t2).takeWhile (fun x => x ≠ rbC) = [] then none
      else some (d = caretC, (classBody d t2).takeWhile (fun x => x ≠ rbC), t4)

theorem classBody_length (d : WChar) (t2 : WStr) :
    (classBody d t2).length ≤ t2.length + 1 := by
  unfold classBody
  by_cases h : d = caretC <;> simp [h]

theorem parseClass_length {t : WStr} {neg : Bool} {cls t4 : WStr}
    (h : parseClass t = some (neg, cls, t4)) : t4.length < t.length := by
  match t with
  | [] => simp [parseClass] at h
  | d :: t2 =>
    rw [parseClass] at h
    revert h
    match hdrop : (classBody d t2).dropWhile (fun x => x ≠ rbC) with
    | [] => intro h; simp at h
    | r :: t4' =>
      intro h
      have h' : (if (classBody d t2).takeWhile (fun x => x ≠ rbC) = [] then none
          else some ((d = caretC : Bool),
            (classBody d t2).takeWhile (fun x => x ≠ rbC), t4')) =
          some (neg, cls, t4) := h
      by_cases hcls : (classBody d t2).takeWhile (fun x => x ≠ rbC) = []
      · rw [if_pos hcls] at h'
        simp at h'
      · rw [if_neg hcls] at h'
        have ht4 : t4' = t4 := by
          simp only [Option.some.injEq, Prod.mk.injEq] at h'
          exact h'.2.2
        have h1 : (r :: t4').length ≤ (classBody d t2).length :=
          hdrop ▸ (List.dropWhile_sublist _).length_le
        have h2 := classBody_length d t2
        subst ht4
        simp only [List.length_cons] at h1 ⊢
        omega

/-- `Condition::construct` (lines 725-782).  The C++ loop first takes
the maximal run of non-metacharacters as a NORMAL span, then
dispatches on the metacharacter found: `.` emits DOT; a bare `]`
throws ("closing bracket has no matching opening bracket"); `[`
parses a class via `parseClass`, whose failure models the other two
exceptions.  `Except.error` models the thrown `Condition_Exception`. -/
def construct : WStr → Except Unit (List Span)
  | [] => .ok []
  | c :: t =>
    if c = dotC then
      match construct t with
      | .ok sp => .ok (Span.dot :: sp)
      | .error e => .error e
    else if c = rbC then
      .error ()
    else if c = lbC then
      match hcl : parseClass t with
      | none => .error ()
      | some (neg, cls, t4) =>
        match construct t4 with
        | .ok sp => .ok ((if neg then Span.none_of cls else Span.any_of cls) :: sp)
        | .error e => .error e
    else
      match construct (t.dropWhile isOrd) with
      | .ok sp => .ok (Span.normal (c :: t.takeWhile isOrd) :: sp)
      | .error e => .error e
termination_by s => s.length
decreasing_by
  · simp only [List.length_cons]
    omega
  · simp only [List.length_cons]
    exact Nat.lt_succ_of_lt (parseClass_length hcl)
  · simp only [List.length_cons]
    exact Nat.lt_succ_of_le ((List.dropWhile_sublist _).length_le)

/-- Case-unfolding equation for `construct` on a non-empty pattern. -/
theorem construct_cons_eq (c : WChar) (t : WStr) :
    construct (c :: t) =
      (if c = dotC then
        match construct t with
        | .ok sp => .ok (Span.dot :: sp)
        | .error e => .error e
      else if c = rbC then
        .error ()
      else if c = lbC then
        match parseClass t with
        | none => .error ()
        | some (neg, cls, t4) =>
          match construct t4 with
          | .ok sp => .ok ((if neg then Span.none_of cls else Span.any_of cls) :: sp)
          | .error e => .error e
      else
        match construct (t.dropWhile isOrd) with
        | .ok sp => .ok (Span.normal (c :: t.takeWhile isOrd) :: sp)
        | .error e => .error e) := by
  rw [construct.eq_def]
  simp only
  rcases hp : parseClass t with _ | ⟨neg, cls, t4⟩ <;> rfl

/-- Whether construction succeeded (no exception thrown). -/
def isOkB : Except Unit (List Span) → Bool
  | .ok _ => true
  | .error _ => false

/-- Well-formed condition patterns, read off the specification's
description of the pattern language (§4.2): a pattern is a sequence of
items, where an item is an ordinary character (neither bracket), the
wildcard dot, or a bracket class `[...]` / `[^...]` whose member list
is non-empty and contains no closing bracket.  In a non-negated class
the first member is not `^` (such a pattern denotes a negated class
instead). -/
inductive WF : WStr → Prop
  | nil : WF []
  | item {c : WChar} {t : WStr} : c ≠ lbC → c ≠ rbC → WF t → WF (c :: t)
  | cls {m : WStr} {t : WStr} : m ≠ [] → rbC ∉ m → m.head? ≠ some caretC →
      WF t → WF (lbC :: (m ++ rbC :: t))
  | ncls {m : WStr} {t : WStr} : m ≠ [] → rbC ∉ m →
      WF t → WF (lbC :: caretC :: (m ++ rbC :: t))

theorem takeWhile_ne_append {m t : WStr} (hm : rbC ∉ m) :
    (m ++ rbC :: t).takeWhile (fun x => x ≠ rbC) = m ∧
    (m ++ rbC :: t).dropWhile (fun x => x ≠ rbC) = rbC :: t := by
  induction m with
  | nil => simp
  | cons a m' ih =>
    have ha : a ≠ rbC := fun hc => hm (hc ▸ List.mem_cons_self a m')
    have ih' := ih (fun hmem => hm (List.mem_cons_of_mem a hmem))
    constructor
    · rw [List.cons_append, List.takeWhile_cons_of_pos (by simpa using ha), ih'.1]
    · rw [List.cons_append, List.dropWhile_cons_of_pos (by simpa using ha), ih'.2]

/-- `parseClass` succeeds on a well-shaped non-negated class. -/
theorem parseClass_pos {m t : WStr} (hm : m ≠ []) (hrb : rbC ∉ m)
    (hhead : m.head? ≠ some caretC) :
    parseClass (m ++ rbC :: t) = some (false, m, t) := by
  match m, hm with
  | d :: m', _ =>
    have hd : d ≠ caretC := by simpa using hhead
    have hdrb : d ≠ rbC := fun hc => hrb (hc ▸ List.mem_cons_self d m')
    have hbody : classBody d (m' ++ rbC :: t) = (d :: m') ++ rbC :: t := by
      unfold classBody
      rw [if_neg hd]
      simp
    have hsplit := takeWhile_ne_append (m := d :: m') (t := t) hrb
    rw [List.cons_append, parseClass, hbody, hsplit.2, hsplit.1]
    simp [hd]

/-- `parseClass` succeeds on a well-shaped negated class. -/
theorem parseClass_neg {m t : WStr} (hm : m ≠ []) (hrb : rbC ∉ m) :
    parseClass (caretC :: (m ++ rbC :: t)) = some (true, m, t) := by
  have hbody : classBody caretC (m ++ rbC :: t) = m ++ rbC :: t := by
    unfold classBody
    rw [if_pos rfl]
  have hsplit := takeWhile_ne_append (m := m) (t := t) hrb
  rw [parseClass, hbody, hsplit.2, hsplit.1]
  simp [hm]

/-- Shape of the input on which `parseClass` succeeds. -/
theorem parseClass_shape {t : WStr} {neg : Bool} {cls t4 : WStr}
    (h : parseClass t = some (neg, cls, t4)) :
    cls ≠ [] ∧ rbC ∉ cls ∧
      ((neg = true ∧ t = caretC :: (cls ++ rbC :: t4)) ∨
       (neg = false ∧ cls.head? ≠ some caretC ∧ t = cls ++ rbC :: t4)) := by
  match t with
  | [] => simp [parseClass] at h
  | d :: t2 =>
    rw [parseClass] at h
    revert h
    match hdrop : (classBody d t2).dropWhile (fun x => x ≠ rbC) with
    | [] => intro h; simp at h
    | r :: t4' =>
      intro h
      have h' : (if (classBody d t2).takeWhile (fun x => x ≠ rbC) = [] then none
          else some ((d = caretC : Bool),
            (classBody d t2).takeWhile (fun x => x ≠ rbC), t4')) =
          some (neg, cls, t4) := h
      by_cases hcls : (classBody d t2).takeWhile (fun x => x ≠ rbC) = []
      · rw [if_pos hcls] at h'
        simp at h'
      · rw [if_neg hcls] at h'
        simp only [Option.some.injEq, Prod.mk.injEq] at h'
        obtain ⟨hneg, hclseq, ht4⟩ := h'
        have hr : r = rbC := by
          have := dropWhile_head_not hdrop
          simpa using this
        have hsplit : (classBody d t2).takeWhile (fun x => x ≠ rbC) ++
            rbC :: t4' = classBody d t2 := by
          have h0 := List.takeWhile_append_dropWhile
            (p := fun x => decide (x ≠ rbC)) (l := classBody d t2)
          rw [hdrop, hr] at h0
          exact h0
        have hnorb : rbC ∉ (classBody d t2).takeWhile (fun x => x ≠ rbC) := by
          intro hmem
          have := List.mem_takeWhile_imp hmem
          simp at this
        subst hclseq
        subst ht4
        refine ⟨hcls, hnorb, ?_⟩
        by_cases hd : d = caretC
        · left
          subst hd
          have hb : classBody caretC t2 = t2 := by unfold classBody; rw [if_pos rfl]
          refine ⟨by simp [← hneg], ?_⟩
          rw [hsplit, hb]
        · right
          have hb : classBody d t2 = d :: t2 := by unfold classBody; rw [if_neg hd]
          refine ⟨by simp [← hneg, hd], ?_, ?_⟩
          · match hc : (classBody d t2).takeWhile (fun x => x ≠ rbC), hcls with
            | e :: m', _ =>
              have : e = d := by
                rw [hb] at hc
                by_cases hdrb : d = rbC
                · rw [List.takeWhile_cons_of_neg (by simpa using hdrb)] at hc
                  cases hc
                · rw [List.takeWhile_cons_of_pos (by simpa using hdrb)] at hc
                  exact (List.cons.injEq .. ▸ hc).1.symm
              simp [this, hd]
          · rw [hsplit, hb]

/-- If a pattern compiles, so does the pattern with its maximal
leading run of ordinary characters removed. -/
theorem construct_dropWhile_ok {t : WStr} (h : isOkB (construct t) = true) :
    isOkB (construct (t.dropWhile isOrd)) = true := by
  induction t with
  | nil => simpa using h
  | cons d t' ih =>
    by_cases hd : isMeta d
    · rwa [List.dropWhile_cons_of_neg (by simp [isOrd, hd])]
    · rw [List.dropWhile_cons_of_pos (by simp [isOrd, hd])]
      have hdot : d ≠ dotC := fun hc => hd (by simp [isMeta, hc])
      have hrb : d ≠ rbC := fun hc => hd (by simp [isMeta, hc])
      have hlb : d ≠ lbC := fun hc => hd (by simp [isMeta, hc])
      rw [construct_cons_eq, if_neg hdot, if_neg hrb, if_neg hlb] at h
      cases hin : construct (t'.dropWhile isOrd) with
      | ok sp => simp [isOkB, hin]
      | error e => simp [isOkB, hin] at h

theorem wf_construct_ok {p : WStr} (h : WF p) : isOkB (construct p) = true := by
  induction h with
  | nil => rw [construct]; rfl
  | @item c t hlb hrb _ ih =>
    by_cases hdot : c = dotC
    · rw [construct_cons_eq, if_pos hdot]
      cases hin : construct t with
      | ok sp => simp [isOkB, hin]
      | error e => simp [isOkB, hin] at ih
    · rw [construct_cons_eq, if_neg hdot, if_neg hrb, if_neg hlb]
      have h2 := construct_dropWhile_ok ih
      cases hin : construct (t.dropWhile isOrd) with
      | ok sp => simp [isOkB, hin]
      | error e => simp [isOkB, hin] at h2
  | @cls m t hm hrb hhead _ ih =>
    rw [construct_cons_eq,
        if_neg (by decide : ¬ (lbC : WChar) = dotC),
        if_neg (by decide : ¬ (lbC : WChar) = rbC), if_pos rfl,
        parseClass_pos hm hrb hhead]
    cases hin : construct t with
    | ok sp => simp [isOkB, hin]
    | error e => simp [isOkB, hin] at ih
  | @ncls m t hm hrb _ ih =>
    have hshape : lbC :: caretC :: (m ++ rbC :: t) =
        lbC :: (caretC :: (m ++ rbC :: t)) := rfl
    rw [hshape, construct_cons_eq,
        if_neg (by decide : ¬ (lbC : WChar) = dotC),
        if_neg (by decide : ¬ (lbC : WChar) = rbC), if_pos rfl,
        parseClass_neg hm hrb]
    cases hin : construct t with
    | ok sp => simp [isOkB, hin]
    | error e => simp [isOkB, hin] at ih

/-- Prepending a run of ordinary (non-metacharacter) characters
preserves well-formedness. -/
theorem wf_append_run {run t : WStr} (hrun : ∀ x ∈ run, ¬ isMeta x)
    (h : WF t) : WF (run ++ t) := by
  induction run with
  | nil => simpa using h
  | cons a r ih =>
    have ha := hrun a (by simp)
    refine WF.item (fun hc => ha (by simp [isMeta, hc]))
      (fun hc => ha (by simp [isMeta, hc])) ?_
    exact ih (fun x hx => hrun x (List.mem_cons_of_mem a hx))

theorem construct_ok_wf_aux : ∀ (n : Nat) (p : WStr), p.length ≤ n →
    isOkB (construct p) = true → WF p := by
  intro n
  induction n with
  | zero =>
    intro p hlen _
    have : p = [] := List.eq_nil_of_length_eq_zero (Nat.le_zero.mp hlen)
    exact this ▸ WF.nil
  | succ n ih =>
    intro p hlen h
    match p with
    | [] => exact WF.nil
    | c :: t =>
      simp only [List.length_cons, Nat.succ_le_succ_iff] at hlen
      by_cases hdot : c = dotC
      · rw [construct_cons_eq, if_pos hdot] at h
        have hok : isOkB (construct t) = true := by
          cases hin : construct t with
          | ok sp => simp [isOkB]
          | error e => simp [isOkB, hin] at h
        exact WF.item (hdot ▸ (by decide)) (hdot ▸ (by decide)) (ih t hlen hok)
      · by_cases hrb : c = rbC
        · rw [construct_cons_eq, if_neg hdot, if_pos hrb] at h
          simp [isOkB] at h
        · by_cases hlb : c = lbC
          · rw [construct_cons_eq, if_neg hdot, if_neg hrb, if_pos hlb] at h
            revert h
            match hcl : parseClass t with
            | none => intro h; simp [isOkB] at h
            | some (neg, cls, t4) =>
              intro h
              have hok : isOkB (construct t4) = true := by
                cases hin : construct t4 with
                | ok sp => simp [isOkB]
                | error e => simp [isOkB, hin] at h
              have hlen4 : t4.length ≤ n :=
                le_trans (Nat.le_of_lt (parseClass_length hcl)) hlen
              have hwf4 : WF t4 := ih t4 hlen4 hok
              obtain ⟨hcls, hnorb, hcase⟩ := parseClass_shape hcl
              rcases hcase with ⟨_, ht⟩ | ⟨_, hhead, ht⟩
              · rw [hlb, ht]
                exact WF.ncls hcls hnorb hwf4
              · rw [hlb, ht]
                exact WF.cls hcls hnorb hhead hwf4
          · rw [construct_cons_eq, if_neg hdot, if_neg hrb, if_neg hlb] at h
            have hok : isOkB (construct (t.dropWhile isOrd)) =
                true := by
              cases hin : construct (t.dropWhile isOrd) with
              | ok sp => simp [isOkB]
              | error e => simp [isOkB, hin] at h
            have hlen' : (t.dropWhile isOrd).length ≤ n :=
              le_trans (List.dropWhile_sublist _).length_le hlen
            have hwf : WF (t.dropWhile isOrd) := ih _ hlen' hok
            have hrun : ∀ x ∈ t.takeWhile isOrd, ¬ isMeta x := by
              intro x hx
              have := List.mem_takeWhile_imp hx
              simp [isOrd] at this
              simp [this]
            have hwt : WF t := by
              have := wf_append_run hrun hwf
              rwa [List.takeWhile_append_dropWhile] at this
            exact WF.item hlb hrb hwt

theorem construct_ok_wf {p : WStr} (h : isOkB (construct p) = true) : WF p :=
  construct_ok_wf_aux p.length p (le_refl _) h

end Condition

/-- C8: Constructing a `Condition` from a malformed pattern — a
closing bracket with no matching opening bracket, an opening bracket
with no matching closing bracket, or an empty bracket class — always
throws an exception, and for every well-formed pattern construction
succeeds without throwing.  Formally: `construct` succeeds exactly on
the patterns generated by the grammar `Condition.WF`; every pattern
outside that grammar exhibits one of the three listed defects, and
`construct` signals an error on it. -/
theorem claim_C8_condition_construct (p : WStr) :
    Condition.isOkB (Condition.construct p) = true ↔ Condition.WF p :=
  ⟨Condition.construct_ok_wf, Condition.wf_construct_ok⟩



/-!
## Dictionary public entry points (dictionary.cxx, lines 2785-2828)

`Dictionary::spell` and `Dictionary::suggest` convert the input word
from the external encoding to the internal wide encoding and apply a
hard length cap of 180 wide code units before consulting the engine.
Encoding conversion (`external_to_internal_encoding` /
`internal_to_external_encoding`) is an external collaborator (ICU /
codecvt) and is represented by its results; the engine
(`spell_priv` / `suggest_priv`) is a parameter, which lets the
theorems state that the early-return paths do not consult it.
-/

/-- A narrow (external-encoding) string. -/
abbrev NStr := List Nat

namespace Dictionary

/-- `Dictionary::spell`: conversion produces `ok_enc` and `wide_word`;
a wide word longer than 180 code units is misspelled before `ok_enc`
is even examined (the `resize`/`shrink_to_fit` on that path only trims
the thread-local scratch buffer); then a failed conversion is
misspelled; otherwise `spell_priv` decides. -/
def spell (spell_priv : WStr → Bool) (ok_enc : Bool) (wide_word : WStr) : Bool :=
  if wide_word.length > 180 then false
  else if ¬ ok_enc then false
  else spell_priv wide_word

/-- `Dictionary::suggest`: same early returns, leaving the caller's
`out` untouched; on the normal path `out` is rebuilt from the engine's
wide suggestions, each converted by `internal_to_external_encoding`
(external, represented by `conv`; its boolean result is ignored by the
source). -/
def suggest (suggest_priv : WStr → List WStr) (conv : WStr → NStr)
    (ok_enc : Bool) (wide_word : WStr) (out : List NStr) : List NStr :=
  if wide_word.length > 180 then out
  else if ¬ ok_enc then out
  else (suggest_priv wide_word).map conv

end Dictionary

/-- C1: For every input word whose wide-character form after encoding
conversion is longer than 180 code units, `spell` returns false and
`suggest` produces no suggestions (the output list is left untouched),
without invoking the checking engine — the result holds for *every*
engine `sp`/`sg`, so the engine is not consulted; an input of exactly
180 wide code units is processed normally (the engine's verdict is
returned). -/
theorem claim_C1_input_length_cap (sp : WStr → Bool) (sg : WStr → List WStr)
    (conv : WStr → NStr) (ok_enc : Bool) (w : WStr) (out : List NStr) :
    (w.length > 180 →
      Dictionary.spell sp ok_enc w = false ∧
      Dictionary.suggest sg conv ok_enc w out = out) ∧
    (w.length = 180 →
      Dictionary.spell sp ok_enc w = (if ok_enc then sp w else false) ∧
      Dictionary.suggest sg conv ok_enc w out =
        (if ok_enc then (sg w).map conv else out)) := by
  constructor
  · intro hlen
    unfold Dictionary.spell Dictionary.suggest
    rw [if_pos hlen, if_pos hlen]
    exact ⟨rfl, rfl⟩
  · intro hlen
    have hnot : ¬ (w.length > 180) := by omega
    unfold Dictionary.spell Dictionary.suggest
    by_cases hok : ok_enc
    · simp [hok, hnot]
    · simp [hok, hnot]

/-- Witness for C1 at concrete inputs: a 181-unit word is rejected
with no suggestions regardless of the engine, and a 180-unit word is
passed to the engine. -/
theorem claim_C1_input_length_cap_witness :
    ((List.replicate 181 7).length > 180 ∧
      Dictionary.spell (fun _ => true) true (List.replicate 181 7) = false ∧
      Dictionary.suggest (fun _ => [[5]]) (fun s => s) true
        (List.replicate 181 7) [[9]] = [[9]]) ∧
    ((List.replicate 180 7).length = 180 ∧
      Dictionary.spell (fun _ => true) true (List.replicate 180 7) = true) := by
  have h1 := (claim_C1_input_length_cap (fun _ => true) (fun _ => [[5]])
    (fun s => s) true (List.replicate 181 7) [[9]]).1
    (by rw [List.length_replicate]; omega)
  have h2 := (claim_C1_input_length_cap (fun _ => true) (fun _ => [[5]])
    (fun s => s) true (List.replicate 180 7) [[9]]).2
    (by rw [List.length_replicate])
  refine ⟨⟨by rw [List.length_replicate]; omega, h1.1, h1.2⟩,
    by rw [List.length_replicate], ?_⟩
  rw [h2.1]
  rfl
/-!
## Break_Table (structures.hxx, lines 440-513) and
## Dict_Base::spell_break (dictionary.cxx, lines 301-356)

`spell_break` consults `spell_casing` (here a parameter `sc` — it does
not recurse back into `spell_break`) and, on failure, splits the word
at start-anchored, end-anchored and middle break patterns, recursing
on the parts.  The recursion on a start/end split restarts with the
default depth 0; a middle split recurses at `depth + 1`, and `depth`
is checked against 9 before any split.

The embedding uses an explicit fuel counter that is structural for
Lean; `fuel = |s| + 1` is proved sufficient (every recursive call
strictly shrinks the string), which is the termination argument of
the C++ recursion.  The second component of the result instruments
the computation with the maximum value of the `depth` argument over
all invocations actually performed.
-/

/-- the character code of the caret anchor. -/
def caretW : WChar := 94

/-- the character code of the dollar anchor. -/
def dollarW : WChar := 36

/-- `Break_Table` after `order_entries()`: the three pattern groups,
with the `^` / `$` anchors already stripped. -/
structure Break_Table where
  start_word_breaks : List WStr
  end_word_breaks : List WStr
  middle_word_breaks : List WStr

namespace Break_Table

/-- `remove_if` criterion of `order_entries` (lines 492-496): drop
empty entries and the sole-anchor entries `"^"` and `"$"`. -/
def breakKeep (s : WStr) : Bool :=
  ¬ (s = [] ∨ (s.length = 1 ∧ (s.headD 0 = caretW ∨ s.headD 0 = dollarW)))

/-- `is_start_word_break`: `x[0] == '^'`. -/
def isStartPat (s : WStr) : Bool := s.headD 0 = caretW

/-- `is_end_word_break`: `x.back() == '$'`. -/
def isEndPat (s : WStr) : Bool := s.getLastD 0 = dollarW

/-- `Break_Table::order_entries()` (lines 489-513): filter, then
partition into start-anchored (with the `^` erased), end-anchored
(with the `$` popped) and middle entries.  `std::partition` is
unstable, so only the contents of each group are specified; `filter`
realizes them. -/
def ofTable (v : List WStr) : Break_Table where
  start_word_breaks := ((v.filter breakKeep).filter isStartPat).map (·.drop 1)
  end_word_breaks :=
    (((v.filter breakKeep).filter (fun s => ¬ isStartPat s)).filter isEndPat).map
      (·.dropLast)
  middle_word_breaks :=
    ((v.filter breakKeep).filter (fun s => ¬ isStartPat s)).filter
      (fun s => ¬ isEndPat s)

/-- All pattern groups of a break table are free of empty patterns. -/
def NoEmptyPats (bt : Break_Table) : Prop :=
  (∀ p ∈ bt.start_word_breaks, p ≠ []) ∧
  (∀ p ∈ bt.end_word_breaks, p ≠ []) ∧
  (∀ p ∈ bt.middle_word_breaks, p ≠ [])

theorem breakKeep_two_le {s : WStr} (hk : breakKeep s = true)
    (ha : s.headD 0 = caretW ∨ s.getLastD 0 = dollarW) : 2 ≤ s.length := by
  unfold breakKeep at hk
  simp only [decide_eq_true_eq] at hk
  push_neg at hk
  match s with
  | [] => exact absurd rfl hk.1
  | [a] =>
    exfalso
    rcases ha with h | h
    · exact (hk.2 rfl).1 (by simpa using h)
    · exact (hk.2 rfl).2 (by simpa using h)
  | a :: b :: t => simp

theorem ofTable_noEmptyPats (v : List WStr) : (ofTable v).NoEmptyPats := by
  refine ⟨?_, ?_, ?_⟩
  · intro p hp
    simp only [ofTable, List.mem_map, List.mem_filter] at hp
    obtain ⟨q, ⟨⟨_, hkeep⟩, hstart⟩, hq⟩ := hp
    have h2 : 2 ≤ q.length :=
      breakKeep_two_le hkeep (Or.inl (by simpa [isStartPat] using hstart))
    intro hc
    rw [← hq] at hc
    have := congrArg List.length hc
    simp at this
    omega
  · intro p hp
    simp only [ofTable, List.mem_map, List.mem_filter] at hp
    obtain ⟨q, ⟨⟨⟨_, hkeep⟩, _⟩, hend⟩, hq⟩ := hp
    have h2 : 2 ≤ q.length :=
      breakKeep_two_le hkeep (Or.inr (by simpa [isEndPat] using hend))
    intro hc
    rw [← hq] at hc
    have := congrArg List.length hc
    simp [List.length_dropLast] at this
    omega
  · intro p hp
    simp only [ofTable, List.mem_filter] at hp
    obtain ⟨⟨⟨_, hkeep⟩, _⟩, _⟩ := hp
    unfold breakKeep at hkeep
    simp only [decide_eq_true_eq] at hkeep
    push_neg at hkeep
    exact hkeep.1

end Break_Table

/-- `std::wstring::find(pat)`: the first position at which `pat`
occurs as a (full) substring, or `npos`. -/
def strFind (s pat : WStr) : Option Nat :=
  (List.range (s.length + 1)).find?
    (fun i => i + pat.length ≤ s.length && (s.drop i).take pat.length = pat)

section SpellBreak

variable (sc : WStr → Option (List Flag)) (forbiddenword_flag warn_flag : Flag)
variable (forbid_warn : Bool) (bt : Break_Table)

/-- One iteration of the start-anchored break loop of `spell_break`
(lines 319-326): if no result was found yet and the pattern matches at
the start, recurse (`rec0`, at the default depth 0) on the remainder;
record the instrumented maximum depth. -/
def sbStartStep (rec0 : WStr → Nat → Bool × Nat) (s : WStr)
    (acc : Bool × Nat) (pat : WStr) : Bool × Nat :=
  if acc.1 then acc
  else if s.take pat.length = pat then
    let r := rec0 (s.drop pat.length) 0
    (r.1, max acc.2 r.2)
  else acc

/-- One iteration of the end-anchored break loop (lines 329-338). -/
def sbEndStep (rec0 : WStr → Nat → Bool × Nat) (s : WStr)
    (acc : Bool × Nat) (pat : WStr) : Bool × Nat :=
  if acc.1 then acc
  else if pat.length ≤ s.length ∧ s.drop (s.length - pat.length) = pat then
    let r := rec0 (s.take (s.length - pat.length)) 0
    (r.1, max acc.2 r.2)
  else acc

/-- One iteration of the middle break loop (lines 341-353): split at
the first occurrence of the pattern when it is strictly inside the
word, and require both parts to spell (each checked at `depth + 1`). -/
def sbMiddleStep (rec0 : WStr → Nat → Bool × Nat) (s : WStr) (depth : Nat)
    (acc : Bool × Nat) (pat : WStr) : Bool × Nat :=
  if acc.1 then acc
  else
    match strFind s pat with
    | some i =>
      if 0 < i ∧ i + pat.length < s.length then
        let rA := rec0 (s.take i) (depth + 1)
        if rA.1 then
          let rB := rec0 (s.drop (i + pat.length)) (depth + 1)
          (rB.1, max acc.2 (max rA.2 rB.2))
        else (false, max acc.2 rA.2)
      else acc
    | none => acc

/-- Instrumented `Dict_Base::spell_break`.  First component: the
boolean result.  Second component: the maximum value taken by the
`depth` argument over all invocations performed (including this one).
The three pattern loops are left-folds whose steps stop recursing once
a result is found, exactly like the early `return` in the source. -/
def spell_break_i : Nat → WStr → Nat → Bool × Nat
  | 0, _, depth => (false, depth)
  | fuel + 1, s, depth =>
    match sc s with
    | some res =>
      (!(StringSet.contains res forbiddenword_flag) &&
        !(forbid_warn && StringSet.contains res warn_flag), depth)
    | none =>
      if depth = 9 then (false, depth)
      else
        let r1 := bt.start_word_breaks.foldl
          (sbStartStep (spell_break_i fuel) s) (false, 0)
        if r1.1 then (true, max depth r1.2)
        else
          let r2 := bt.end_word_breaks.foldl
            (sbEndStep (spell_break_i fuel) s) (false, 0)
          if r2.1 then (true, max depth (max r1.2 r2.2))
          else
            let r3 := bt.middle_word_breaks.foldl
              (sbMiddleStep (spell_break_i fuel) s depth) (false, 0)
            (r3.1, max depth (max r1.2 (max r2.2 r3.2)))

/-- `Dict_Base::spell_break` itself: run with sufficient fuel
(`|s| + 1`, proved sufficient below). -/
def spell_break (s : WStr) (depth : Nat) : Bool :=
  (spell_break_i sc forbiddenword_flag warn_flag forbid_warn bt
    (s.length + 1) s depth).1

end SpellBreak

theorem foldl_snd_bound {α : Type} {step : Bool × Nat → α → Bool × Nat}
    {l : List α} {init : Bool × Nat} {B : Nat}
    (h0 : init.2 ≤ B)
    (hstep : ∀ acc x, x ∈ l → acc.2 ≤ B → (step acc x).2 ≤ B) :
    (l.foldl step init).2 ≤ B := by
  induction l generalizing init with
  | nil => exact h0
  | cons a t ih =>
    exact ih (hstep init a (by simp) h0)
      (fun acc x hx hacc => hstep acc x (by simp [hx]) hacc)

theorem foldl_congr_mem {α β : Type} {l : List α} {f g : β → α → β} {b : β}
    (h : ∀ acc x, x ∈ l → f acc x = g acc x) : l.foldl f b = l.foldl g b := by
  induction l generalizing b with
  | nil => rfl
  | cons a t ih =>
    rw [List.foldl_cons, List.foldl_cons, h b a (by simp)]
    exact ih (fun acc x hx => h acc x (by simp [hx]))

theorem sbStartStep_bound {rec0 : WStr → Nat → Bool × Nat} {s : WStr}
    (hrec : ∀ s', (rec0 s' 0).2 ≤ 9) :
    ∀ acc pat, acc.2 ≤ 9 → (sbStartStep rec0 s acc pat).2 ≤ 9 := by
  intro acc pat hacc
  unfold sbStartStep
  by_cases ha : acc.1
  · simpa [ha] using hacc
  · by_cases hm : s.take pat.length = pat
    · simp only [ha, hm, if_false, if_true, Bool.false_eq_true, max_le_iff]
      exact ⟨hacc, hrec _⟩
    · simpa [ha, hm] using hacc

theorem sbEndStep_bound {rec0 : WStr → Nat → Bool × Nat} {s : WStr}
    (hrec : ∀ s', (rec0 s' 0).2 ≤ 9) :
    ∀ acc pat, acc.2 ≤ 9 → (sbEndStep rec0 s acc pat).2 ≤ 9 := by
  intro acc pat hacc
  unfold sbEndStep
  by_cases ha : acc.1
  · simpa [ha] using hacc
  · by_cases hm : pat.length ≤ s.length ∧ s.drop (s.length - pat.length) = pat
    · simp only [ha, if_false, Bool.false_eq_true]
      rw [if_pos hm]
      simp only [max_le_iff]
      exact ⟨hacc, hrec _⟩
    · simpa [ha, hm] using hacc

theorem sbMiddleStep_bound {rec0 : WStr → Nat → Bool × Nat} {s : WStr}
    {depth : Nat} (hrec : ∀ s', (rec0 s' (depth + 1)).2 ≤ 9) :
    ∀ acc pat, acc.2 ≤ 9 → (sbMiddleStep rec0 s depth acc pat).2 ≤ 9 := by
  intro acc pat hacc
  unfold sbMiddleStep
  by_cases ha : acc.1
  · simpa [ha] using hacc
  · simp only [ha, if_false, Bool.false_eq_true]
    cases hf : strFind s pat with
    | none => exact hacc
    | some i =>
      simp only
      by_cases hm : 0 < i ∧ i + pat.length < s.length
      · rw [if_pos hm]
        by_cases hr : (rec0 (s.take i) (depth + 1)).1
        · simp only [hr, if_true, if_pos, max_le_iff]
          exact ⟨hacc, hrec _, hrec _⟩
        · simp only [hr, if_false, Bool.false_eq_true, max_le_iff]
          exact ⟨hacc, hrec _⟩
      · rw [if_neg hm]
        exact hacc

/-- The `depth` argument of `spell_break_i` never exceeds 9 in any
invocation of the call tree: start/end splits restart at depth 0, and
middle splits at `depth + 1` happen only after the `depth == 9` check
fails. -/
theorem spell_break_i_depth_le (sc : WStr → Option (List Flag))
    (forb warn : Flag) (fwarn : Bool) (bt : Break_Table) :
    ∀ fuel (s : WStr) (depth : Nat), depth ≤ 9 →
      (spell_break_i sc forb warn fwarn bt fuel s depth).2 ≤ 9 := by
  intro fuel
  induction fuel with
  | zero =>
    intro s depth hd
    simpa [spell_break_i] using hd
  | succ fuel ih =>
    intro s depth hd
    simp only [spell_break_i]
    cases hsc : sc s with
    | some res => simpa using hd
    | none =>
      simp only
      by_cases h9 : depth = 9
      · simpa [h9] using hd
      · rw [if_neg h9]
        have hrec0 : ∀ s', (spell_break_i sc forb warn fwarn bt fuel s' 0).2 ≤ 9 :=
          fun s' => ih s' 0 (by omega)
        have hrecd : ∀ s',
            (spell_break_i sc forb warn fwarn bt fuel s' (depth + 1)).2 ≤ 9 :=
          fun s' => ih s' (depth + 1) (by omega)
        have hb1 := @foldl_snd_bound _
          (sbStartStep (spell_break_i sc forb warn fwarn bt fuel) s)
          bt.start_word_breaks (false, 0) 9 (by simp)
          (fun acc pat _ hacc => sbStartStep_bound hrec0 acc pat hacc)
        have hb2 := @foldl_snd_bound _
          (sbEndStep (spell_break_i sc forb warn fwarn bt fuel) s)
          bt.end_word_breaks (false, 0) 9 (by simp)
          (fun acc pat _ hacc => sbEndStep_bound hrec0 acc pat hacc)
        have hb3 := @foldl_snd_bound _
          (sbMiddleStep (spell_break_i sc forb warn fwarn bt fuel) s depth)
          bt.middle_word_breaks (false, 0) 9 (by simp)
          (fun acc pat _ hacc => sbMiddleStep_bound hrecd acc pat hacc)
        by_cases hr1 : (bt.start_word_breaks.foldl
            (sbStartStep (spell_break_i sc forb warn fwarn bt fuel) s)
            (false, 0)).1
        · simp only [hr1, if_true, if_pos, max_le_iff]
          exact ⟨hd, hb1⟩
        · simp only [hr1, if_false, Bool.false_eq_true]
          by_cases hr2 : (bt.end_word_breaks.foldl
              (sbEndStep (spell_break_i sc forb warn fwarn bt fuel) s)
              (false, 0)).1
          · simp only [hr2, if_true, if_pos, max_le_iff]
            exact ⟨hd, hb1, hb2⟩
          · simp only [hr2, if_false, Bool.false_eq_true, max_le_iff]
            exact ⟨hd, hb1, hb2, hb3⟩

theorem sbStartStep_congr {rec0 rec0' : WStr → Nat → Bool × Nat} {s pat : WStr}
    (h : s.take pat.length = pat →
      rec0 (s.drop pat.length) 0 = rec0' (s.drop pat.length) 0) :
    ∀ acc, sbStartStep rec0 s acc pat = sbStartStep rec0' s acc pat := by
  intro acc
  unfold sbStartStep
  by_cases ha : acc.1
  · simp [ha]
  · by_cases hm : s.take pat.length = pat
    · simp [ha, hm, h hm]
    · simp [ha, hm]

theorem sbEndStep_congr {rec0 rec0' : WStr → Nat → Bool × Nat} {s pat : WStr}
    (h : pat.length ≤ s.length ∧ s.drop (s.length - pat.length) = pat →
      rec0 (s.take (s.length - pat.length)) 0 =
        rec0' (s.take (s.length - pat.length)) 0) :
    ∀ acc, sbEndStep rec0 s acc pat = sbEndStep rec0' s acc pat := by
  intro acc
  unfold sbEndStep
  by_cases ha : acc.1
  · simp [ha]
  · by_cases hm : pat.length ≤ s.length ∧ s.drop (s.length - pat.length) = pat
    · simp only [ha, if_false, Bool.false_eq_true]
      rw [if_pos hm, if_pos hm, h hm]
    · simp only [ha, if_false, Bool.false_eq_true]
      rw [if_neg hm, if_neg hm]

theorem sbMiddleStep_congr {rec0 rec0' : WStr → Nat → Bool × Nat} {s pat : WStr}
    {depth : Nat}
    (h : ∀ i, strFind s pat = some i → 0 < i ∧ i + pat.length < s.length →
      rec0 (s.take i) (depth + 1) = rec0' (s.take i) (depth + 1) ∧
      rec0 (s.drop (i + pat.length)) (depth + 1) =
        rec0' (s.drop (i + pat.length)) (depth + 1)) :
    ∀ acc, sbMiddleStep rec0 s depth acc pat = sbMiddleStep rec0' s depth acc pat := by
  intro acc
  unfold sbMiddleStep
  by_cases ha : acc.1
  · simp [ha]
  · simp only [ha, if_false, Bool.false_eq_true]
    cases hf : strFind s pat with
    | none => rfl
    | some i =>
      simp only
      by_cases hm : 0 < i ∧ i + pat.length < s.length
      · rw [if_pos hm, if_pos hm, (h i hf hm).1, (h i hf hm).2]
      · rw [if_neg hm, if_neg hm]

/-- The spell_break recursion reaches its base cases within `|s|`
nested splits: any fuel beyond `|s|` computes the same value.  This is
the termination argument of the C++ recursion, which strictly shrinks
the string on every split. -/
theorem spell_break_i_fuel_irrel (sc : WStr → Option (List Flag))
    (forb warn : Flag) (fwarn : Bool) (bt : Break_Table)
    (hne : bt.NoEmptyPats) :
    ∀ (n : Nat) (s : WStr), s.length ≤ n → ∀ fuel₁ fuel₂ depth,
      s.length < fuel₁ → s.length < fuel₂ →
      spell_break_i sc forb warn fwarn bt fuel₁ s depth =
        spell_break_i sc forb warn fwarn bt fuel₂ s depth := by
  have core : ∀ s : WStr,
      (∀ s' : WStr, s'.length < s.length → ∀ fuel₁ fuel₂ depth,
        s'.length < fuel₁ → s'.length < fuel₂ →
        spell_break_i sc forb warn fwarn bt fuel₁ s' depth =
          spell_break_i sc forb warn fwarn bt fuel₂ s' depth) →
      ∀ fuel₁ fuel₂ depth, s.length < fuel₁ → s.length < fuel₂ →
      spell_break_i sc forb warn fwarn bt fuel₁ s depth =
        spell_break_i sc forb warn fwarn bt fuel₂ s depth := by
    intro s ihs fuel₁ fuel₂ depth h1 h2
    match fuel₁, fuel₂, h1, h2 with
    | g1 + 1, g2 + 1, h1, h2 =>
      simp only [spell_break_i]
      cases hsc : sc s with
      | some res => rfl
      | none =>
        simp only
        by_cases h9 : depth = 9
        · simp [h9]
        · rw [if_neg h9, if_neg h9]
          have hstart : bt.start_word_breaks.foldl
              (sbStartStep (spell_break_i sc forb warn fwarn bt g1) s) (false, 0) =
              bt.start_word_breaks.foldl
              (sbStartStep (spell_break_i sc forb warn fwarn bt g2) s) (false, 0) := by
            refine foldl_congr_mem ?_
            intro acc pat hpat
            refine sbStartStep_congr (fun hm => ?_) acc
            have hpne : pat ≠ [] := hne.1 pat hpat
            have hlen : pat.length ≤ s.length := by
              have := congrArg List.length hm
              simp only [List.length_take] at this
              omega
            have hplen : 1 ≤ pat.length :=
              Nat.one_le_iff_ne_zero.mpr (by simpa using hpne)
            have hlt : (s.drop pat.length).length < s.length := by
              simp only [List.length_drop]
              omega
            exact ihs _ hlt g1 g2 0 (by simp only [List.length_drop]; omega)
              (by simp only [List.length_drop]; omega)
          have hend : bt.end_word_breaks.foldl
              (sbEndStep (spell_break_i sc forb warn fwarn bt g1) s) (false, 0) =
              bt.end_word_breaks.foldl
              (sbEndStep (spell_break_i sc forb warn fwarn bt g2) s) (false, 0) := by
            refine foldl_congr_mem ?_
            intro acc pat hpat
            refine sbEndStep_congr (fun hm => ?_) acc
            have hpne : pat ≠ [] := hne.2.1 pat hpat
            have hplen : 1 ≤ pat.length :=
              Nat.one_le_iff_ne_zero.mpr (by simpa using hpne)
            have hlt : (s.take (s.length - pat.length)).length < s.length := by
              simp only [List.length_take]
              omega
            exact ihs _ hlt g1 g2 0 (by simp only [List.length_take]; omega)
              (by simp only [List.length_take]; omega)
          have hmid : bt.middle_word_breaks.foldl
              (sbMiddleStep (spell_break_i sc forb warn fwarn bt g1) s depth)
                (false, 0) =
              bt.middle_word_breaks.foldl
              (sbMiddleStep (spell_break_i sc forb warn fwarn bt g2) s depth)
                (false, 0) := by
            refine foldl_congr_mem ?_
            intro acc pat hpat
            refine sbMiddleStep_congr (fun i hfind hm => ?_) acc
            have hlt1 : (s.take i).length < s.length := by
              simp only [List.length_take]
              omega
            have hlt2 : (s.drop (i + pat.length)).length < s.length := by
              simp only [List.length_drop]
              omega
            constructor
            · exact ihs _ hlt1 g1 g2 (depth + 1)
                (by simp only [List.length_take]; omega)
                (by simp only [List.length_take]; omega)
            · exact ihs _ hlt2 g1 g2 (depth + 1)
                (by simp only [List.length_drop]; omega)
                (by simp only [List.length_drop]; omega)
          rw [hstart, hend, hmid]
  intro n
  induction n with
  | zero =>
    intro s hs
    exact core s (fun s' hlt => absurd hlt (by omega))
  | succ n ih =>
    intro s hs
    exact core s (fun s' hlt => ih s' (by omega))

/-- C2: for every dictionary (break table built by `order_entries`
from any raw table) and every input string, the recursive splitting
performed by `spell_break` at break-table markers terminates — any
fuel beyond the strictly decreasing string length computes the same
value, so the recursion reaches its base cases — and never recurses
beyond depth 9: the maximum value of the `depth` argument over all
invocations performed, as computed by the instrumented
`spell_break_i`, is at most 9 whenever the entry depth is (in
particular for the top-level entry at depth 0). -/
theorem claim_C2_spell_break_terminates_depth_9
    (sc : WStr → Option (List Flag)) (forb warn : Flag) (fwarn : Bool)
    (v : List WStr) (s : WStr) (depth : Nat) (hd : depth ≤ 9)
    (fuel₁ fuel₂ : Nat) (h1 : s.length < fuel₁) (h2 : s.length < fuel₂) :
    spell_break_i sc forb warn fwarn (Break_Table.ofTable v) fuel₁ s depth =
      spell_break_i sc forb warn fwarn (Break_Table.ofTable v) fuel₂ s depth ∧
    (spell_break_i sc forb warn fwarn (Break_Table.ofTable v) fuel₁ s depth).2
      ≤ 9 ∧
    spell_break sc forb warn fwarn (Break_Table.ofTable v) s depth =
      (spell_break_i sc forb warn fwarn (Break_Table.ofTable v) fuel₁ s depth).1 := by
  have hirr := spell_break_i_fuel_irrel sc forb warn fwarn
    (Break_Table.ofTable v) (Break_Table.ofTable_noEmptyPats v) s.length s
    (le_refl _) fuel₁ fuel₂ depth h1 h2
  have hbound := spell_break_i_depth_le sc forb warn fwarn
    (Break_Table.ofTable v) fuel₁ s depth hd
  have hdef : spell_break sc forb warn fwarn (Break_Table.ofTable v) s depth =
      (spell_break_i sc forb warn fwarn (Break_Table.ofTable v) fuel₁ s
        depth).1 := by
    unfold spell_break
    rw [spell_break_i_fuel_irrel sc forb warn fwarn (Break_Table.ofTable v)
      (Break_Table.ofTable_noEmptyPats v) s.length s (le_refl _)
      (s.length + 1) fuel₁ depth (by omega) h1]
  exact ⟨hirr, hbound, hdef⟩

/-- Witness for C2 at a concrete break table (`BREAK ^-`, `-$`, `-`),
word and depth. -/
theorem claim_C2_witness :
    spell_break_i (fun _ => none) 1 2 false
        (Break_Table.ofTable [[94, 45], [45, 36], [45]]) 6 [97, 45, 98] 0 =
      spell_break_i (fun _ => none) 1 2 false
        (Break_Table.ofTable [[94, 45], [45, 36], [45]]) 9 [97, 45, 98] 0 ∧
    (spell_break_i (fun _ => none) 1 2 false
        (Break_Table.ofTable [[94, 45], [45, 36], [45]]) 6 [97, 45, 98] 0).2
      ≤ 9 ∧
    spell_break (fun _ => none) 1 2 false
        (Break_Table.ofTable [[94, 45], [45, 36], [45]]) [97, 45, 98] 0 =
      (spell_break_i (fun _ => none) 1 2 false
        (Break_Table.ofTable [[94, 45], [45, 36], [45]]) 6 [97, 45, 98] 0).1 :=
  claim_C2_spell_break_terminates_depth_9 (fun _ => none) 1 2 false
    [[94, 45], [45, 36], [45]] [97, 45, 98] 0 (by decide) 6 9
    (by decide) (by decide)

/-! ### C10: `Hash_Multiset` (structures.hxx 523-651)

`Hash_Multiset` stores values in `data`, a vector of buckets; a value `v`
goes to the bucket at index `hash(key v) & (data.size() - 1)`, where
`data.size()` is kept a power of two, so the mask equals
`hash(key v) % data.size()`, which is how we model it.  `insert`
(lines 580-611) appends at the end of the bucket when the bucket has at
most one element or its last element has the same key; otherwise it
searches the bucket from the rear for an element with the same key and
inserts right after it (at `last.base()`, the forward position
`size - r` for reverse index `r`); if none is found it appends.
`equal_range` (lines 618-650) locates the first element with the key
and, if the following element also matches, extends the range to just
past the rearmost match.  The growth path (`rehash`/`reserve`, driven by
a floating-point load factor) only re-inserts every element through the
same per-bucket `insert` logic, so we model a table with a fixed bucket
count `n > 0` (the steady state between rehashes). -/

section HashMultiset

variable {V K : Type} [DecidableEq K]

/-- Per-bucket logic of `Hash_Multiset::insert` (structures.hxx 580-611). -/
def bucketInsert (key : V → K) (b : List V) (v : V) : List V :=
  if b.length = 0 ∨ b.length = 1 ∨ key (b.getLastD v) = key v then
    b ++ [v]
  else
    match b.reverse.findIdx? (fun x => key x = key v) with
    | some r => b.take (b.length - r) ++ v :: b.drop (b.length - r)
    | none => b ++ [v]

/-- General path of `Hash_Multiset::equal_range` on one bucket
(structures.hxx 630-649): find the first match, peek at the next
element, and on a second match extend to just past the rearmost one. -/
def bucketEqualRangeGo (key : V → K) (b : List V) (k : K) : List V :=
  match b.findIdx? (fun z => key z = k) with
  | none => []
  | some first =>
    match (b.drop (first + 1)).head? with
    | none => (b.drop first).take 1
    | some nx =>
      if key nx = k then
        match b.reverse.findIdx? (fun z => key z = k) with
        | some r => (b.drop first).take (b.length - r - first)
        | none => []
      else (b.drop first).take 1

/-- Per-bucket logic of `Hash_Multiset::equal_range` (structures.hxx
618-650), including the size-0 and size-1 special cases. -/
def bucketEqualRange (key : V → K) (b : List V) (k : K) : List V :=
  match b with
  | [] => []
  | [x] => if key x = k then [x] else []
  | x :: y :: t => bucketEqualRangeGo key (x :: y :: t) k

/-- The word-index hash multiset: a vector of buckets. -/
structure Hash_Multiset (α : Type) where
  data : List (List α)

namespace Hash_Multiset

/-- A table with `n` empty buckets (state right after a rehash). -/
def emptyN (n : Nat) : Hash_Multiset V := ⟨List.replicate n []⟩

/-- `Hash_Multiset::insert` (structures.hxx 580-611) without the growth
path: dispatch on the hash of the key, then `bucketInsert`. -/
def insert (key : V → K) (hashf : K → Nat) (m : Hash_Multiset V)
    (v : V) : Hash_Multiset V :=
  let h_mod := hashf (key v) % m.data.length
  ⟨m.data.set h_mod (bucketInsert key (m.data.getD h_mod []) v)⟩

/-- `Hash_Multiset::equal_range` (structures.hxx 618-650). -/
def equal_range (key : V → K) (hashf : K → Nat) (m : Hash_Multiset V)
    (k : K) : List V :=
  if m.data.length = 0 then []
  else bucketEqualRange key (m.data.getD (hashf k % m.data.length) []) k

end Hash_Multiset

/-- Bucket invariant: values with equal keys form contiguous runs.  Each
block is one value together with its same-key companions, and no later
element of the bucket carries that key again. -/
inductive Grouped (key : V → K) : List V → Prop where
  | nil : Grouped key []
  | block (v : V) (blk rest : List V)
      (hblk : ∀ x ∈ blk, key x = key v)
      (hrest : ∀ x ∈ rest, key x ≠ key v)
      (hg : Grouped key rest) : Grouped key (v :: (blk ++ rest))

/-- The last element of `l ++ r` lies in `r` when `r` is nonempty. -/
theorem getLastD_mem_right {α : Type} (l r : List α) (hr : r ≠ [])
    (d : α) : (l ++ r).getLastD d ∈ r := by
  rcases hrev : r.reverse with _ | ⟨x, xs⟩
  · exact absurd (List.reverse_eq_nil_iff.mp hrev) hr
  · have hx : x ∈ r := by
      have hmem : x ∈ r.reverse := by
        rw [hrev]; exact List.mem_cons_self x xs
      exact List.mem_reverse.mp hmem
    rw [List.getLastD_eq_getLast?, List.getLast?_eq_head?_reverse,
        List.reverse_append, hrev]
    simpa using hx

/-- Searching `(A ++ F) ++ C` from the rear for key `k` finds the last
element of `F` (reverse index `C.length`) when `F` is all-`k`, `C` is
`k`-free and `F` is nonempty. -/
theorem rear_find_eq (key : V → K) (k : K) (A F C : List V)
    (hF : ∀ x ∈ F, key x = k) (hC : ∀ x ∈ C, key x ≠ k)
    (hFne : F ≠ []) :
    ((A ++ F) ++ C).reverse.findIdx? (fun x => key x = k)
      = some C.length := by
  rcases hrev : F.reverse with _ | ⟨g, gt⟩
  · exact absurd (List.reverse_eq_nil_iff.mp hrev) hFne
  · have hg : g ∈ F := by
      have hmem : g ∈ F.reverse := by
        rw [hrev]; exact List.mem_cons_self g gt
      exact List.mem_reverse.mp hmem
    have hCnone : C.reverse.findIdx? (fun x => decide (key x = k))
        = none :=
      List.findIdx?_eq_none_iff.mpr (fun x hx => by
        simp [hC x (List.mem_reverse.mp hx)])
    rw [List.append_assoc, List.reverse_append, List.reverse_append,
        List.append_assoc, List.findIdx?_append, hCnone, hrev]
    simp [hF g hg]

/-- Searching `A ++ f :: rest` forwards for key `k` finds `f` at index
`A.length` when `A` is `k`-free and `key f = k`. -/
theorem fwd_find_eq (key : V → K) (k : K) (A : List V) (f : V)
    (rest : List V) (hA : ∀ x ∈ A, key x ≠ k) (hf : key f = k) :
    (A ++ f :: rest).findIdx? (fun x => key x = k) = some A.length := by
  have hAnone : A.findIdx? (fun x => decide (key x = k)) = none :=
    List.findIdx?_eq_none_iff.mpr (fun x hx => by simp [hA x hx])
  rw [List.findIdx?_append, hAnone]
  simp [hf]

/-- A `Grouped` bucket splits, for any key `k`, into a `k`-free part,
the run of all its `k`-elements (in order, i.e. its `filter`), and a
`k`-free tail; when there are no `k`-elements the tail is empty. -/
theorem grouped_decomp (key : V → K) {b : List V} (hb : Grouped key b)
    (k : K) :
    ∃ A C, b = (A ++ b.filter (fun x => key x = k)) ++ C ∧
      (∀ x ∈ A, key x ≠ k) ∧ (∀ x ∈ C, key x ≠ k) ∧
      (b.filter (fun x => key x = k) = [] → A = b ∧ C = []) := by
  induction hb with
  | nil =>
    exact ⟨[], [], by simp, by simp, by simp, fun _ => ⟨rfl, rfl⟩⟩
  | block v blk rest hblk hrest hg ih =>
    by_cases hk : key v = k
    · have hfil : (v :: (blk ++ rest)).filter (fun x => key x = k)
          = v :: blk := by
        rw [List.filter_cons_of_pos (by simp [hk]), List.filter_append]
        rw [List.filter_eq_self.mpr (fun a ha => by
              simp [(hblk a ha).trans hk]),
            List.filter_eq_nil_iff.mpr (fun a ha => by
              simp [hk ▸ hrest a ha])]
        simp
      refine ⟨[], rest, ?_, by simp, ?_, ?_⟩
      · rw [hfil]; simp
      · intro x hx
        rw [← hk]; exact hrest x hx
      · intro hcontr
        rw [hfil] at hcontr
        exact absurd hcontr (List.cons_ne_nil v blk)
    · have hfil : (v :: (blk ++ rest)).filter (fun x => key x = k)
          = rest.filter (fun x => key x = k) := by
        rw [List.filter_cons_of_neg (by simp [hk]), List.filter_append]
        rw [List.filter_eq_nil_iff.mpr (fun a ha => by
              simp [(hblk a ha) ▸ hk])]
        simp
      obtain ⟨A', C', hre, hA', hC', hni⟩ := ih
      refine ⟨v :: (blk ++ A'), C', ?_, ?_, hC', ?_⟩
      · rw [hfil]
        conv_lhs => rw [show v :: (blk ++ rest) =
          v :: (blk ++ ((A' ++ rest.filter (fun x => key x = k)) ++ C'))
          from by rw [← hre]]
        simp [List.append_assoc]
      · intro x hx
        rcases List.mem_cons.mp hx with h | h
        · rw [h]; exact hk
        · rcases List.mem_append.mp h with h2 | h2
          · rw [hblk x h2]; exact hk
          · exact hA' x h2
      · intro hcontr
        rw [hfil] at hcontr
        obtain ⟨hA'eq, hC'eq⟩ := hni hcontr
        refine ⟨?_, hC'eq⟩
        rw [hA'eq]

/-- Central insertion lemma: on a bucket split as `(A ++ F) ++ C` with
`F` the run of the new value's key, `bucketInsert` places the new value
exactly at the end of that run. -/
theorem bucketInsert_run (key : V → K) (v : V) (A F C : List V)
    (hF : ∀ x ∈ F, key x = key v) (hA : ∀ x ∈ A, key x ≠ key v)
    (hC : ∀ x ∈ C, key x ≠ key v) (hFC : F = [] → C = []) :
    bucketInsert key ((A ++ F) ++ C) v = (A ++ F) ++ v :: C := by
  rcases C with _ | ⟨ch, ct⟩
  · rcases F with _ | ⟨fh, ft⟩
    · -- empty run, empty tail: the bucket is `A`, all keys differ;
      -- both the fast path and the failed rear search append.
      have hnone : A.reverse.findIdx? (fun x => decide (key x = key v))
          = none :=
        List.findIdx?_eq_none_iff.mpr (fun x hx => by
          simp [hA x (List.mem_reverse.mp hx)])
      simp only [List.append_nil]
      unfold bucketInsert
      split
      · rfl
      · rw [hnone]
    · -- nonempty run, empty tail: the last bucket element is in `F` and
      -- carries the key, so the fast path appends at the end of the run.
      have hlast : key (((A ++ (fh :: ft)) ++ ([] : List V)).getLastD v)
          = key v := by
        rw [List.append_nil]
        exact hF _ (getLastD_mem_right A (fh :: ft) (List.cons_ne_nil fh ft) v)
      unfold bucketInsert
      rw [if_pos (Or.inr (Or.inr hlast))]
      simp
  · -- nonempty tail: `F` is nonempty too, the last element is in `C`
    -- and does not carry the key, so the rear search runs and finds the
    -- end of the run at reverse index `C.length`.
    have hFne : F ≠ [] := by
      intro h
      exact absurd (hFC h) (List.cons_ne_nil ch ct)
    have hlast : ((A ++ F) ++ ch :: ct).getLastD v ∈ ch :: ct :=
      getLastD_mem_right (A ++ F) (ch :: ct) (List.cons_ne_nil ch ct) v
    have hlen : ((A ++ F) ++ ch :: ct).length
        = A.length + F.length + (ct.length + 1) := by
      simp [List.length_append]
      omega
    have hfind := rear_find_eq key (key v) A F (ch :: ct) hF hC hFne
    have hFlen : 0 < F.length := List.length_pos.mpr hFne
    have hcond : ¬ (((A ++ F) ++ ch :: ct).length = 0 ∨
        ((A ++ F) ++ ch :: ct).length = 1 ∨
        key (((A ++ F) ++ ch :: ct).getLastD v) = key v) := by
      push_neg
      refine ⟨by rw [hlen]; omega, by rw [hlen]; omega, hC _ hlast⟩
    have hlenAF : (A ++ F).length
        = ((A ++ F) ++ ch :: ct).length - (ch :: ct).length := by
      rw [hlen]; simp [List.length_append]
    have htk : ((A ++ F) ++ ch :: ct).take
        (((A ++ F) ++ ch :: ct).length - (ch :: ct).length) = A ++ F :=
      @List.take_left' V (A ++ F) (ch :: ct) _ hlenAF
    have hdr : ((A ++ F) ++ ch :: ct).drop
        (((A ++ F) ++ ch :: ct).length - (ch :: ct).length) = ch :: ct :=
      @List.drop_left' V (A ++ F) (ch :: ct) _ hlenAF
    unfold bucketInsert
    rw [if_neg hcond, hfind]
    simp only [htk, hdr]

/-- `bucketInsert` preserves the contiguous-run invariant. -/
theorem grouped_bucketInsert (key : V → K) {b : List V}
    (hb : Grouped key b) (v : V) :
    Grouped key (bucketInsert key b v) := by
  induction hb with
  | nil =>
    have h0 : bucketInsert key [] v = [v] := by
      simp [bucketInsert]
    rw [h0]
    exact Grouped.block v [] [] (by simp) (by simp) Grouped.nil
  | block u blk rest hblk hrest hg ih =>
    by_cases hk : key v = key u
    · -- same key as the leading block: the new value lands at the end
      -- of that block.
      have hins := bucketInsert_run key v [] (u :: blk) rest
        (fun x hx => by
          rcases List.mem_cons.mp hx with h | h
          · rw [h, hk]
          · rw [hblk x h, hk])
        (by simp)
        (fun x hx => by rw [hk]; exact hrest x hx)
        (fun h => absurd h (List.cons_ne_nil u blk))
      have hsh : (([] : List V) ++ u :: blk) ++ rest
          = u :: (blk ++ rest) := by simp
      rw [hsh] at hins
      rw [hins]
      have hsh2 : (([] : List V) ++ u :: blk) ++ v :: rest
          = u :: ((blk ++ [v]) ++ rest) := by simp
      rw [hsh2]
      exact Grouped.block u (blk ++ [v]) rest
        (fun x hx => by
          rcases List.mem_append.mp hx with h | h
          · exact hblk x h
          · rw [List.mem_singleton.mp h]; exact hk)
        hrest hg
    · -- different key: the leading block is untouched and the value is
      -- inserted into the tail, exactly as the recursive picture says.
      obtain ⟨A', C', hre, hA', hC', hni⟩ := grouped_decomp key hg (key v)
      have hFall : ∀ x ∈ rest.filter (fun x => key x = key v),
          key x = key v := fun x hx => by
        have hm := List.mem_filter.mp hx
        simpa using hm.2
      have hFsub : ∀ x ∈ rest.filter (fun x => key x = key v),
          x ∈ rest := fun x hx => (List.mem_filter.mp hx).1
      have hins := bucketInsert_run key v (u :: (blk ++ A'))
        (rest.filter (fun x => key x = key v)) C' hFall
        (fun x hx => by
          rcases List.mem_cons.mp hx with h | h
          · rw [h]; exact fun hc => hk hc.symm
          · rcases List.mem_append.mp h with h2 | h2
            · rw [hblk x h2]; exact fun hc => hk hc.symm
            · exact hA' x h2)
        hC' (fun h => (hni h).2)
      have hins2 := bucketInsert_run key v A'
        (rest.filter (fun x => key x = key v)) C' hFall hA' hC'
        (fun h => (hni h).2)
      have hsh : ((u :: (blk ++ A'))
            ++ rest.filter (fun x => key x = key v)) ++ C'
          = u :: (blk ++ ((A' ++ rest.filter (fun x => key x = key v)) ++ C')) := by
        simp [List.append_assoc]
      rw [hsh, ← hre] at hins
      rw [hins]
      have hsh2 : ((u :: (blk ++ A'))
            ++ rest.filter (fun x => key x = key v)) ++ v :: C'
          = u :: (blk ++ ((A' ++ rest.filter (fun x => key x = key v)) ++ v :: C')) := by
        simp [List.append_assoc]
      rw [hsh2]
      have ih2 : Grouped key
          ((A' ++ rest.filter (fun x => key x = key v)) ++ v :: C') := by
        rw [← hins2, ← hre]
        exact ih
      exact Grouped.block u blk
        ((A' ++ rest.filter (fun x => key x = key v)) ++ v :: C')
        hblk
        (fun x hx => by
          rcases List.mem_append.mp hx with h1 | h1
          · rcases List.mem_append.mp h1 with h2 | h2
            · refine hrest x ?_
              rw [hre]
              exact List.mem_append_left _ (List.mem_append_left _ h2)
            · refine hrest x ?_
              rw [hre]
              exact List.mem_append_left _ (List.mem_append_right _ h2)
          · rcases List.mem_cons.mp h1 with h2 | h2
            · rw [h2]; exact hk
            · refine hrest x ?_
              rw [hre]
              exact List.mem_append_right _ h2)
        ih2

/-- Filter tracking: inserting `v` into a `Grouped` bucket appends `v`
to the run of its key and leaves every other key's run untouched. -/
theorem filter_bucketInsert (key : V → K) {b : List V}
    (hb : Grouped key b) (v : V) (k : K) :
    (bucketInsert key b v).filter (fun x => key x = k)
      = b.filter (fun x => key x = k)
        ++ if key v = k then [v] else [] := by
  obtain ⟨A', C', hre, hA', hC', hni⟩ := grouped_decomp key hb (key v)
  have hFall : ∀ x ∈ b.filter (fun x => key x = key v),
      key x = key v := fun x hx => by
    have hm := List.mem_filter.mp hx
    simpa using hm.2
  have hins := bucketInsert_run key v A'
    (b.filter (fun x => key x = key v)) C' hFall hA' hC'
    (fun h => (hni h).2)
  rw [← hre] at hins
  rw [hins]
  by_cases hvk : key v = k
  · subst hvk
    rw [if_pos rfl]
    have h1 : A'.filter (fun x => key x = key v) = [] :=
      List.filter_eq_nil_iff.mpr (fun a ha => by simp [hA' a ha])
    have h2 : (b.filter (fun x => key x = key v)).filter
          (fun x => key x = key v)
        = b.filter (fun x => key x = key v) :=
      List.filter_eq_self.mpr (fun a ha => (List.mem_filter.mp ha).2)
    have h3 : C'.filter (fun x => key x = key v) = [] :=
      List.filter_eq_nil_iff.mpr (fun a ha => by simp [hC' a ha])
    rw [List.filter_append, List.filter_append, h1, h2,
        List.filter_cons_of_pos (by simp), h3]
    simp
  · rw [if_neg hvk, List.append_nil]
    conv_rhs => rw [hre]
    rw [List.filter_append, List.filter_append, List.filter_append,
        List.filter_append, List.filter_cons_of_neg (by simp [hvk])]

/-- State invariant for the modelled `Hash_Multiset`: `n` buckets, every
bucket satisfies the contiguous-run invariant, and for every key the run
in its bucket lists exactly the values of that key inserted so far, in
insertion order. -/
def HMInv (key : V → K) (hashf : K → Nat) (n : Nat)
    (st : Hash_Multiset V) (p : List V) : Prop :=
  st.data.length = n ∧ (∀ b ∈ st.data, Grouped key b) ∧
  ∀ k : K, (st.data.getD (hashf k % n) []).filter (fun x => key x = k)
      = p.filter (fun x => key x = k)

/-- Any bucket read off a table whose buckets are all `Grouped` is
`Grouped` (out-of-range reads give the empty bucket). -/
theorem grouped_getD (key : V → K) {dl : List (List V)}
    (h : ∀ b ∈ dl, Grouped key b) (i : Nat) :
    Grouped key (dl.getD i []) := by
  rcases Nat.lt_or_ge i dl.length with hi | hi
  · rw [List.getD_eq_getElem?_getD, List.getElem?_eq_getElem hi]
    exact h _ (List.getElem_mem hi)
  · rw [List.getD_eq_getElem?_getD, List.getElem?_eq_none hi]
    exact Grouped.nil

/-- The freshly rehashed table with `n` empty buckets satisfies the
invariant with no values inserted. -/
theorem hm_empty_inv (key : V → K) (hashf : K → Nat) (n : Nat) :
    HMInv key hashf n (Hash_Multiset.emptyN n) [] := by
  refine ⟨by simp [Hash_Multiset.emptyN], ?_, ?_⟩
  · intro b hb
    rw [List.eq_of_mem_replicate hb]
    exact Grouped.nil
  · intro k
    have hbk : (List.replicate n ([] : List V)).getD (hashf k % n) []
        = [] := by
      rw [List.getD_eq_getElem?_getD, List.getElem?_replicate]
      split <;> rfl
    simp [Hash_Multiset.emptyN, hbk]

/-- One `insert` step preserves the invariant, extending the insertion
history by the new value. -/
theorem hm_insert_inv (key : V → K) (hashf : K → Nat) (n : Nat)
    (hn : 0 < n) {st : Hash_Multiset V} {p : List V}
    (h : HMInv key hashf n st p) (v : V) :
    HMInv key hashf n (Hash_Multiset.insert key hashf st v)
      (p ++ [v]) := by
  obtain ⟨hlen, hgr, hfil⟩ := h
  have hjlt : hashf (key v) % st.data.length < st.data.length := by
    rw [hlen]; exact Nat.mod_lt _ hn
  have hout : (Hash_Multiset.insert key hashf st v).data
      = st.data.set (hashf (key v) % st.data.length)
          (bucketInsert key
            (st.data.getD (hashf (key v) % st.data.length) []) v) := rfl
  refine ⟨by rw [hout]; simp [hlen], ?_, ?_⟩
  · intro b hb
    rw [hout] at hb
    rcases List.mem_or_eq_of_mem_set hb with hmem | heq
    · exact hgr b hmem
    · rw [heq]
      exact grouped_bucketInsert key (grouped_getD key hgr _) v
  · intro k
    rw [hout]
    by_cases hik : hashf k % n = hashf (key v) % st.data.length
    · -- same bucket: the new value lands here; `filter_bucketInsert`
      -- matches the extension of the history.
      have hget : (st.data.set (hashf (key v) % st.data.length)
            (bucketInsert key
              (st.data.getD (hashf (key v) % st.data.length) []) v)).getD
            (hashf k % n) []
          = bucketInsert key
              (st.data.getD (hashf (key v) % st.data.length) []) v := by
        rw [hik, List.getD_eq_getElem?_getD,
            List.getElem?_set_self (by simpa using hjlt)]
        rfl
      rw [hget, filter_bucketInsert key (grouped_getD key hgr _) v k,
          ← hik, hfil k, List.filter_append]
      congr 1
      by_cases hvk : key v = k
      · rw [if_pos hvk]
        simp [hvk]
      · rw [if_neg hvk]
        simp [hvk]
    · -- different bucket: nothing changes, and the new value's key does
      -- not equal `k` (else the buckets would coincide).
      have hvk : key v ≠ k := by
        intro hc
        exact hik (by rw [← hc, hlen])
      have hget : (st.data.set (hashf (key v) % st.data.length)
            (bucketInsert key
              (st.data.getD (hashf (key v) % st.data.length) []) v)).getD
            (hashf k % n) []
          = st.data.getD (hashf k % n) [] := by
        rw [List.getD_eq_getElem?_getD, List.getElem?_set_ne
          (by intro hc; exact hik hc.symm), ← List.getD_eq_getElem?_getD]
      rw [hget, hfil k, List.filter_append]
      have hvfil : [v].filter (fun x => key x = k) = [] := by
        simp [hvk]
      rw [hvfil, List.append_nil]

/-- Folding `insert` over a value list preserves the invariant. -/
theorem hm_foldl_inv (key : V → K) (hashf : K → Nat) (n : Nat)
    (hn : 0 < n) :
    ∀ (vs : List V) (st : Hash_Multiset V) (p : List V),
      HMInv key hashf n st p →
      HMInv key hashf n
        (vs.foldl (Hash_Multiset.insert key hashf) st) (p ++ vs) := by
  intro vs
  induction vs with
  | nil =>
    intro st p h
    simpa using h
  | cons v vt ih =>
    intro st p h
    have h2 := hm_insert_inv key hashf n hn h v
    have h3 := ih _ _ h2
    simpa [List.append_assoc] using h3

/-- On a bucket split as `(A ++ F) ++ C` with `F` the (contiguous) run
of key `k`, the general path of `equal_range` returns exactly `F`. -/
theorem bucketEqualRangeGo_run (key : V → K) (k : K) (A F C : List V)
    (hF : ∀ x ∈ F, key x = k) (hA : ∀ x ∈ A, key x ≠ k)
    (hC : ∀ x ∈ C, key x ≠ k) (hFC : F = [] → C = []) :
    bucketEqualRangeGo key ((A ++ F) ++ C) k = F := by
  rcases F with _ | ⟨f0, F'⟩
  · -- empty run: the whole bucket is key-free, the forward search fails.
    have hC0 := hFC rfl
    subst hC0
    have hnone : A.findIdx? (fun z => decide (key z = k)) = none :=
      List.findIdx?_eq_none_iff.mpr (fun x hx => by simp [hA x hx])
    simp only [List.append_nil]
    unfold bucketEqualRangeGo
    rw [hnone]
  · have hf0 : key f0 = k := hF f0 (List.mem_cons_self f0 F')
    have hb2 : (A ++ f0 :: F') ++ C = A ++ f0 :: (F' ++ C) := by simp
    rw [hb2]
    have hfind : (A ++ f0 :: (F' ++ C)).findIdx?
          (fun z => decide (key z = k)) = some A.length :=
      fwd_find_eq key k A f0 (F' ++ C) hA hf0
    have hdrop1 : (A ++ f0 :: (F' ++ C)).drop (A.length + 1)
        = F' ++ C := by
      rw [show A ++ f0 :: (F' ++ C) = (A ++ [f0]) ++ (F' ++ C) by simp]
      exact List.drop_left' (by simp)
    have hdrop0 : (A ++ f0 :: (F' ++ C)).drop A.length
        = f0 :: (F' ++ C) :=
      List.drop_left' rfl
    unfold bucketEqualRangeGo
    rw [hfind]
    simp only [hdrop1, hdrop0]
    rcases F' with _ | ⟨f1, F''⟩
    · rcases C with _ | ⟨c0, C''⟩
      · -- run of length one at the very end of the bucket.
        simp
      · -- run of length one followed by a different key.
        have hc0 : ¬ key c0 = k := hC c0 (List.mem_cons_self c0 C'')
        simp [hc0]
    · -- run of length at least two: the rear search closes the range.
      have hf1 : key f1 = k := hF f1 (by simp)
      have hrfind : (A ++ f0 :: f1 :: (F'' ++ C)).reverse.findIdx?
            (fun z => decide (key z = k)) = some C.length := by
        rw [show A ++ f0 :: f1 :: (F'' ++ C)
            = (A ++ (f0 :: f1 :: F'')) ++ C by simp]
        exact rear_find_eq key k A (f0 :: f1 :: F'') C hF hC
          (List.cons_ne_nil f0 (f1 :: F''))
      have htake : (f0 :: f1 :: (F'' ++ C)).take
            ((A ++ f0 :: f1 :: (F'' ++ C)).length - C.length - A.length)
          = f0 :: f1 :: F'' := by
        have hlen2 : (A ++ f0 :: f1 :: (F'' ++ C)).length
            = A.length + (F''.length + 2 + C.length) := by
          simp [List.length_append]
          omega
        rw [hlen2, show A.length + (F''.length + 2 + C.length)
              - C.length - A.length = F''.length + 2 by omega,
            show (f0 :: f1 :: (F'' ++ C))
              = (f0 :: f1 :: F'') ++ C by simp]
        exact List.take_left' (by simp)
      simp only [List.cons_append, List.head?_cons]
      rw [if_pos hf1, hrfind]
      simp only [htake]

/-- On a `Grouped` bucket, `equal_range`'s per-bucket logic returns
exactly the elements with the queried key, in bucket order. -/
theorem bucketEqualRange_eq_filter (key : V → K) {b : List V}
    (hb : Grouped key b) (k : K) :
    bucketEqualRange key b k = b.filter (fun x => key x = k) := by
  obtain ⟨A, C, hre, hA, hC, hni⟩ := grouped_decomp key hb k
  have hFall : ∀ x ∈ b.filter (fun x => key x = k), key x = k :=
    fun x hx => by simpa using (List.mem_filter.mp hx).2
  have hgo : bucketEqualRangeGo key b k
      = b.filter (fun x => key x = k) := by
    conv_lhs => rw [hre]
    exact bucketEqualRangeGo_run key k A _ C hFall hA hC
      (fun h => (hni h).2)
  rcases b with _ | ⟨x, _ | ⟨y, t⟩⟩
  · simp [bucketEqualRange]
  · by_cases hx : key x = k
    · simp [bucketEqualRange, hx]
    · simp [bucketEqualRange, hx]
  · exact hgo

end HashMultiset

/-- **C10.**  After any sequence of `insert` operations into the
word-index hash multiset (modelled with a fixed bucket count `n > 0`):
(1) in every bucket, the entries whose keys compare equal occupy a
contiguous run, listing exactly the bucket's entries of that key in
insertion order; (2) `insert` of a further value places it at the end of
the run of its key in its bucket; (3) `equal_range k` returns exactly
the inserted values whose key equals `k`, in insertion order. -/
theorem claim_C10_hash_multiset_equal_range (V K : Type)
    [DecidableEq K] (key : V → K) (hashf : K → Nat) (n : Nat)
    (hn : 0 < n) (vs : List V) :
    (∀ b ∈ (vs.foldl (Hash_Multiset.insert key hashf)
        (Hash_Multiset.emptyN n)).data, ∀ k : K,
      ∃ A C, b = (A ++ b.filter (fun x => key x = k)) ++ C ∧
        (∀ x ∈ A, key x ≠ k) ∧ (∀ x ∈ C, key x ≠ k)) ∧
    (∀ b ∈ (vs.foldl (Hash_Multiset.insert key hashf)
        (Hash_Multiset.emptyN n)).data, ∀ v : V,
      ∃ A C, b = (A ++ b.filter (fun x => key x = key v)) ++ C ∧
        bucketInsert key b v
          = (A ++ b.filter (fun x => key x = key v)) ++ v :: C) ∧
    (∀ k : K, Hash_Multiset.equal_range key hashf
        (vs.foldl (Hash_Multiset.insert key hashf)
          (Hash_Multiset.emptyN n)) k
      = vs.filter (fun x => key x = k)) := by
  have hinv := hm_foldl_inv key hashf n hn vs (Hash_Multiset.emptyN n) []
    (hm_empty_inv key hashf n)
  simp only [List.nil_append] at hinv
  obtain ⟨hlen, hgr, hfil⟩ := hinv
  refine ⟨?_, ?_, ?_⟩
  · intro b hb k
    obtain ⟨A, C, h1, h2, h3, _⟩ := grouped_decomp key (hgr b hb) k
    exact ⟨A, C, h1, h2, h3⟩
  · intro b hb v
    obtain ⟨A, C, h1, h2, h3, h4⟩ := grouped_decomp key (hgr b hb) (key v)
    refine ⟨A, C, h1, ?_⟩
    have hins := bucketInsert_run key v A
      (b.filter (fun x => key x = key v)) C
      (fun x hx => by simpa using (List.mem_filter.mp hx).2)
      h2 h3 (fun h => (h4 h).2)
    rw [← h1] at hins
    exact hins
  · intro k
    unfold Hash_Multiset.equal_range
    rw [hlen, if_neg (by omega)]
    rw [bucketEqualRange_eq_filter key
      (grouped_getD key hgr (hashf k % n)) k]
    exact hfil k

/-- Witness for C10 at a concrete table: 4 buckets, keys mod 10,
identity hash, values 1, 11, 2, 21 (three share key 1). -/
theorem claim_C10_witness :
    0 < 4 ∧
    ((∀ b ∈ (([1, 11, 2, 21] : List Nat).foldl
        (Hash_Multiset.insert (fun x => x % 10) (fun x => x))
        (Hash_Multiset.emptyN 4)).data, ∀ k : Nat,
      ∃ A C, b = (A ++ b.filter (fun x => x % 10 = k)) ++ C ∧
        (∀ x ∈ A, x % 10 ≠ k) ∧ (∀ x ∈ C, x % 10 ≠ k)) ∧
    (∀ b ∈ (([1, 11, 2, 21] : List Nat).foldl
        (Hash_Multiset.insert (fun x => x % 10) (fun x => x))
        (Hash_Multiset.emptyN 4)).data, ∀ v : Nat,
      ∃ A C, b = (A ++ b.filter (fun x => x % 10 = v % 10)) ++ C ∧
        bucketInsert (fun x => x % 10) b v
          = (A ++ b.filter (fun x => x % 10 = v % 10)) ++ v :: C) ∧
    (∀ k : Nat, Hash_Multiset.equal_range (fun x => x % 10)
        (fun x => x)
        (([1, 11, 2, 21] : List Nat).foldl
          (Hash_Multiset.insert (fun x => x % 10) (fun x => x))
          (Hash_Multiset.emptyN 4)) k
      = ([1, 11, 2, 21] : List Nat).filter (fun x => x % 10 = k))) :=
  ⟨by decide, claim_C10_hash_multiset_equal_range Nat Nat
    (fun x => x % 10) (fun x => x) 4 (by decide) [1, 11, 2, 21]⟩

/-! ### C7: `Prefix_Multiset` iterate-prefixes (structures.hxx 916-1214)

`Prefix_Multiset` keeps its table sorted by the transformed key
(`sort()`, lines 943-974: `std::sort` with `key_a < key_b`, i.e.
lexicographic order on `basic_string`), and builds a first-letter index
(`first_letter` / `prefix_idx_with_first_letter`) by repeatedly taking
the first letter of the next nonempty key and jumping with
`upper_bound` over its group.  `for_each_prefixes_of`
(lines 1168-1214) then yields the empty-key entries from the front of
the table, selects the group of the word's first letter through the
index, and, for `len = 1, 2, ...`, yields the group entries of key
length `len` and narrows the group with `equal_range` on the character
at position `len`.  The suffix index (`Suffix_Multiset`) instantiates
the same template with a reversing `Key_Transform`; the `key` function
below abstracts `transform_key ∘ extract_key`, covering both.  As for
the other claims, the binary searches (`upper_bound`, `equal_range`)
are modelled by their specified boundary scans, exact on the sorted
ranges the source maintains; the sortedness the constructor establishes
is carried as a hypothesis. -/

section PrefixMultiset

variable {α : Type}

/-- `operator<` on `basic_string`, as `≤`: lexicographic order. -/
def lexLeB : WStr → WStr → Bool
  | [], _ => true
  | _ :: _, [] => false
  | a :: as, b :: bs =>
    if a < b then true
    else if a = b then lexLeB as bs
    else false

/-- The first-letter index built by `sort()` (structures.hxx 950-974),
as the list of `(letter, group)` pairs: the letter of the next entry,
and the group reaching to `upper_bound(it, last, k1[0], Comparator{0})`,
i.e. up to the first entry whose key's first character exceeds it. -/
def buildGroups (key : α → WStr) : Nat → List α → List (Nat × List α)
  | 0, _ => []
  | _, [] => []
  | fuel + 1, e :: es =>
    (((key e).headD 0,
        (e :: es).takeWhile (fun x => ¬ (key e).headD 0 < (key x).headD 0)) ::
      buildGroups key fuel
        ((e :: es).dropWhile (fun x => ¬ (key e).headD 0 < (key x).headD 0)))

/-- The `for (size_t len = 1;; ++len)` loop of `for_each_prefixes_of`
(structures.hxx 1191-1206): yield the group entries of key length
`len`; stop when the group is exhausted or `len` reaches the word
length; otherwise narrow the group with
`equal_range(it, last, word[len], Comparator{len})` — the run whose
character at position `len` is neither below nor above `word[len]`. -/
def collectLoop (key : α → WStr) (word : WStr) :
    Nat → Nat → List α → List α
  | 0, _, _ => []
  | fuel + 1, len, r =>
    r.takeWhile (fun e => (key e).length = len) ++
      (if (r.dropWhile (fun e => (key e).length = len)).isEmpty then []
       else if len = word.length then []
       else
         collectLoop key word fuel (len + 1)
           (((r.dropWhile (fun e => (key e).length = len)).dropWhile
               (fun e => (key e).getD len 0 < word.getD len 0)).takeWhile
             (fun e => ¬ word.getD len 0 < (key e).getD len 0)))

/-- Steps after the initial empty-key scan of `for_each_prefixes_of`
(structures.hxx 1184-1206): return if the word is empty or its first
letter has no group in the index; otherwise run the `len`-loop on that
group. -/
def innerIterate (key : α → WStr) (rest : List α) (word : WStr) :
    List α :=
  match word with
  | [] => []
  | w0 :: _ =>
    match (buildGroups key rest.length rest).find?
        (fun g => g.1 = w0) with
    | none => []
    | some g => collectLoop key word word.length 1 g.2

/-- `Prefix_Multiset::for_each_prefixes_of` (structures.hxx 1168-1214):
empty-key entries from the front; then, unless the table has only
empty keys, the group lookup and the `len`-loop. -/
def for_each_prefixes_of (key : α → WStr) (table : List α)
    (word : WStr) : List α :=
  table.takeWhile (fun e => key e = []) ++
    (if (table.dropWhile (fun e => key e = [])).isEmpty then []
     else innerIterate key (table.dropWhile (fun e => key e = [])) word)

/-- `lexLeB` is reflexive. -/
theorem lexLeB_refl : ∀ a : WStr, lexLeB a a = true := by
  intro a
  induction a with
  | nil => rfl
  | cons x xs ih => simp [lexLeB, ih]

/-- A prefix is lexicographically at most the whole string. -/
theorem lexLeB_of_pfx {a b : WStr} (h : a <+: b) :
    lexLeB a b = true := by
  induction b generalizing a with
  | nil =>
    rw [List.prefix_nil.mp h]
    rfl
  | cons y ys ih =>
    rcases a with _ | ⟨x, xs⟩
    · rfl
    · obtain ⟨t, ht⟩ := h
      have hx : x = y := by
        have := congrArg (fun l => l.headD 0) ht
        simpa using this
      subst hx
      have hxs : xs <+: ys := ⟨t, by simpa using ht⟩
      simp [lexLeB, ih hxs]

/-- A string is never lexicographically at most one of its proper
prefixes. -/
theorem lexLeB_lt_of_proper_pfx {a b : WStr} (h : a <+: b)
    (hlen : a.length < b.length) : lexLeB b a = false := by
  induction b generalizing a with
  | nil => simp at hlen
  | cons y ys ih =>
    rcases a with _ | ⟨x, xs⟩
    · rfl
    · obtain ⟨t, ht⟩ := h
      have hx : x = y := by
        have := congrArg (fun l => l.headD 0) ht
        simpa using this
      subst hx
      have hxs : xs <+: ys := ⟨t, by simpa using ht⟩
      have hlen2 : xs.length < ys.length := by simpa using hlen
      simp [lexLeB, ih hxs hlen2]

/-- Heads of lexicographically ordered nonempty strings are ordered. -/
theorem lexLeB_head_le {x y : Nat} {u v : WStr}
    (h : lexLeB (x :: u) (y :: v) = true) : x ≤ y := by
  rcases Nat.lt_trichotomy x y with hlt | heq | hgt
  · omega
  · omega
  · exfalso
    have h1 : ¬ x < y := by omega
    have h2 : ¬ x = y := by omega
    rw [lexLeB, if_neg h1, if_neg h2] at h
    exact Bool.false_ne_true h

/-- A common prefix cancels on both sides of `lexLeB`. -/
theorem lexLeB_append_cancel (t : WStr) (a b : WStr) :
    lexLeB (t ++ a) (t ++ b) = lexLeB a b := by
  induction t with
  | nil => rfl
  | cons x xs ih => simp [lexLeB, ih]

/-- Among two prefixes of the same word, the lexicographically smaller
one is the shorter one. -/
theorem length_le_of_lexLeB {a b w : WStr} (ha : a <+: w) (hb : b <+: w)
    (h : lexLeB a b = true) : a.length ≤ b.length := by
  rcases List.prefix_or_prefix_of_prefix ha hb with hab | hba
  · exact hab.length_le
  · rcases Nat.lt_or_ge b.length a.length with hlt | hge
    · rw [lexLeB_lt_of_proper_pfx hba hlt] at h
      exact absurd h (Bool.false_ne_true)
    · exact hge

/-- The element at the end of a common prefix is the head of the rest. -/
theorem getD_append_head (wt s : WStr) (i : Nat) (h : wt.length = i) :
    (wt ++ s).getD i 0 = s.headD 0 := by
  subst h
  rw [List.getD_eq_getElem?_getD,
      List.getElem?_append_right (le_refl wt.length), Nat.sub_self,
      ← List.head?_eq_getElem? s, List.headD_eq_head?_getD]

/-- The head of a nonempty `dropWhile` result fails the predicate. -/
theorem dropWhile_head_false {β : Type} (p : β → Bool) :
    ∀ (l : List β) {h0 : β} {t0 : List β},
      l.dropWhile p = h0 :: t0 → p h0 = false := by
  intro l
  induction l with
  | nil => intro h0 t0 h; cases h
  | cons a l' ih =>
    intro h0 t0 h
    rw [List.dropWhile_cons] at h
    by_cases hp : p a = true
    · rw [if_pos hp] at h
      exact ih h
    · rw [if_neg hp] at h
      cases h
      simpa using hp

/-- On a list whose measure `f` is nondecreasing, every element
surviving `dropWhile p` is bounded below by the bound that a failing
`p` imposes. -/
theorem mono_dropWhile_bound {β : Type} (f : β → Nat) (p : β → Bool)
    (l : List β) (hmono : l.Pairwise (fun a b => f a ≤ f b)) (c : Nat)
    (hfail : ∀ y, p y = false → c ≤ f y) :
    ∀ x ∈ l.dropWhile p, c ≤ f x := by
  intro x hx
  rcases hd : l.dropWhile p with _ | ⟨h0, t0⟩
  · rw [hd] at hx; cases hx
  · have hh0 : c ≤ f h0 := hfail h0 (dropWhile_head_false p l hd)
    have hsub : (l.dropWhile p).Pairwise (fun a b => f a ≤ f b) :=
      hmono.sublist (List.dropWhile_sublist p)
    rw [hd] at hsub hx
    rcases List.mem_cons.mp hx with h | h
    · rw [h]; exact hh0
    · exact le_trans hh0 ((List.pairwise_cons.mp hsub).1 x h)

/-- The `len`-loop returns exactly the entries of the current range
whose key is a prefix of the word, provided all keys in the range
extend the first `len` word characters and the range is sorted. -/
theorem collectLoop_eq_filter (key : α → WStr) (word : WStr) :
    ∀ fuel len r, 1 ≤ len → len ≤ word.length →
      word.length - len < fuel →
      (∀ x ∈ r, word.take len <+: key x) →
      r.Pairwise (fun a b => lexLeB (key a) (key b) = true) →
      collectLoop key word fuel len r
        = r.filter (fun e => decide (key e <+: word)) := by
  intro fuel
  induction fuel with
  | zero =>
    intro len r h1 h2 h3 hpre hsort
    exact absurd h3 (by omega)
  | succ fuel ih =>
    intro len r h1 h2 h3 hpre hsort
    have hwtlen : (word.take len).length = len := List.length_take_of_le h2
    have hhit : ∀ x ∈ r.takeWhile (fun e => (key e).length = len),
        key x = word.take len := by
      intro x hx
      have hlen : (key x).length = len := by
        simpa using List.mem_takeWhile_imp hx
      have hp := hpre x ((List.takeWhile_sublist
        (fun e => decide ((key e).length = len))).mem hx)
      exact ((hp.eq_of_length (by rw [hwtlen, hlen])).symm)
    have hhitp : ∀ x ∈ r.takeWhile (fun e => (key e).length = len),
        key x <+: word := by
      intro x hx
      rw [hhit x hx]
      exact List.take_prefix len word
    have hfilhit : (r.takeWhile (fun e => (key e).length = len)).filter
          (fun e => decide (key e <+: word))
        = r.takeWhile (fun e => (key e).length = len) :=
      List.filter_eq_self.mpr (fun a ha => by simpa using hhitp a ha)
    have hrestlong : ∀ x ∈ r.dropWhile (fun e => (key e).length = len),
        len < (key x).length := by
      intro x hx
      rcases hd : r.dropWhile (fun e => (key e).length = len)
        with _ | ⟨h0, t0⟩
      · rw [hd] at hx; cases hx
      · have hh0mem : h0 ∈ r := (List.dropWhile_sublist
          (fun e => decide ((key e).length = len))).mem
          (hd ▸ List.mem_cons_self h0 t0)
        have hh0ne : (key h0).length ≠ len := by
          have := dropWhile_head_false _ r hd
          simpa using this
        have hh0ge : len ≤ (key h0).length := by
          have := (hpre h0 hh0mem).length_le
          omega
        have hh0gt : len < (key h0).length := by omega
        rw [hd] at hx
        rcases List.mem_cons.mp hx with h | h
        · rw [h]; exact hh0gt
        · -- a later entry of key length `len` would equal the first
          -- `len` word characters and so sort strictly before `h0`.
          by_contra hcon
          have hxmem : x ∈ r := (List.dropWhile_sublist
            (fun e => decide ((key e).length = len))).mem
            (hd ▸ List.mem_cons_of_mem h0 h)
          have hxlen : (key x).length = len := by
            have := (hpre x hxmem).length_le
            omega
          have hxeq : key x = word.take len :=
            ((hpre x hxmem).eq_of_length (by rw [hwtlen, hxlen])).symm
          have hsub : (r.dropWhile
              (fun e => (key e).length = len)).Pairwise
              (fun a b => lexLeB (key a) (key b) = true) :=
            hsort.sublist (List.dropWhile_sublist _)
          rw [hd] at hsub
          have hle : lexLeB (key h0) (key x) = true :=
            (List.pairwise_cons.mp hsub).1 x h
          rw [hxeq] at hle
          rw [lexLeB_lt_of_proper_pfx (hpre h0 hh0mem)
            (by omega)] at hle
          exact Bool.false_ne_true hle
    rw [collectLoop]
    rcases hd : r.dropWhile (fun e => (key e).length = len)
      with _ | ⟨h0, t0⟩
    · -- range exhausted after the length-`len` entries
      have hr : r = r.takeWhile (fun e => (key e).length = len) := by
        conv_lhs => rw [← List.takeWhile_append_dropWhile
          (fun e => decide ((key e).length = len)) r]
        rw [hd, List.append_nil]
      rw [if_pos List.isEmpty_nil, List.append_nil]
      conv_rhs => rw [hr, hfilhit]
    · rw [if_neg (by rw [List.isEmpty_cons]; exact Bool.false_ne_true)]
      have hrsplit : r = r.takeWhile (fun e => (key e).length = len)
          ++ (h0 :: t0) := by
        conv_lhs => rw [← List.takeWhile_append_dropWhile
          (fun e => decide ((key e).length = len)) r]
        rw [hd]
      by_cases hlw : len = word.length
      · -- `len` reached the word length: no longer key can be a prefix
        rw [if_pos hlw]
        have hfilrest : (h0 :: t0).filter
            (fun e => decide (key e <+: word)) = [] := by
          refine List.filter_eq_nil_iff.mpr (fun a ha => ?_)
          have hgt : len < (key a).length := hrestlong a (hd ▸ ha)
          simp only [decide_eq_true_eq]
          intro hc
          have := hc.length_le
          omega
        conv_rhs => rw [hrsplit, List.filter_append, hfilhit, hfilrest,
          List.append_nil]
        rw [List.append_nil]
      · rw [if_neg hlw]
        have hlenlt : len < word.length := by omega
        have hdecomp : ∀ x ∈ h0 :: t0, ∃ s, key x = word.take len ++ s
            ∧ s ≠ [] := by
          intro x hx
          have hxmem : x ∈ r := (List.dropWhile_sublist
            (fun e => decide ((key e).length = len))).mem (hd ▸ hx)
          obtain ⟨s, hs⟩ := hpre x hxmem
          refine ⟨s, hs.symm, ?_⟩
          intro hnil
          have hgt : len < (key x).length := hrestlong x (hd ▸ hx)
          rw [← hs, hnil, List.append_nil, hwtlen] at hgt
          omega
        have hsortrest : (h0 :: t0).Pairwise
            (fun a b => lexLeB (key a) (key b) = true) := by
          have := hsort.sublist (List.dropWhile_sublist
            (fun e => decide ((key e).length = len)))
          rwa [hd] at this
        have hmono : (h0 :: t0).Pairwise
            (fun a b => (key a).getD len 0 ≤ (key b).getD len 0) := by
          refine List.Pairwise.imp_of_mem ?_ hsortrest
          intro a b ha hb hab
          obtain ⟨sa, hsa, hsane⟩ := hdecomp a ha
          obtain ⟨sb, hsb, hsbne⟩ := hdecomp b hb
          rcases sa with _ | ⟨a0, sa'⟩
          · exact absurd rfl hsane
          rcases sb with _ | ⟨b0, sb'⟩
          · exact absurd rfl hsbne
          rw [hsa, hsb, lexLeB_append_cancel] at hab
          rw [hsa, hsb, getD_append_head _ _ _ hwtlen,
              getD_append_head _ _ _ hwtlen]
          simpa using lexLeB_head_le hab
        have hq1all : ∀ x ∈ (h0 :: t0).dropWhile
            (fun e => (key e).getD len 0 < word.getD len 0),
            word.getD len 0 ≤ (key x).getD len 0 :=
          mono_dropWhile_bound (fun e => (key e).getD len 0)
            (fun e => decide ((key e).getD len 0 < word.getD len 0))
            (h0 :: t0) hmono (word.getD len 0)
            (fun y hy => by simpa using hy)
        have hr'eqw : ∀ x ∈ ((h0 :: t0).dropWhile
              (fun e => (key e).getD len 0 < word.getD len 0)).takeWhile
              (fun e => ¬ word.getD len 0 < (key e).getD len 0),
            (key x).getD len 0 = word.getD len 0 := by
          intro x hx
          have h1x : ¬ word.getD len 0 < (key x).getD len 0 := by
            simpa using List.mem_takeWhile_imp hx
          have h2x := hq1all x ((List.takeWhile_sublist
            (fun e => decide (¬ word.getD len 0 < (key e).getD len 0))).mem hx)
          exact Nat.le_antisymm (Nat.not_lt.mp h1x) h2x
        have hr'mem : ∀ x ∈ ((h0 :: t0).dropWhile
              (fun e => (key e).getD len 0 < word.getD len 0)).takeWhile
              (fun e => ¬ word.getD len 0 < (key e).getD len 0),
            x ∈ h0 :: t0 := by
          intro x hx
          exact (List.dropWhile_sublist _).mem
            ((List.takeWhile_sublist _).mem hx)
        have htakes : word.take (len + 1)
            = word.take len ++ [word.getD len 0] := by
          rw [List.take_succ, List.getD_eq_getElem?_getD,
              List.getElem?_eq_getElem hlenlt]
          rfl
        have hprenext : ∀ x ∈ ((h0 :: t0).dropWhile
              (fun e => (key e).getD len 0 < word.getD len 0)).takeWhile
              (fun e => ¬ word.getD len 0 < (key e).getD len 0),
            word.take (len + 1) <+: key x := by
          intro x hx
          obtain ⟨s, hs, hsne⟩ := hdecomp x (hr'mem x hx)
          rcases s with _ | ⟨s0, s'⟩
          · exact absurd rfl hsne
          have hgd : (key x).getD len 0 = s0 := by
            rw [hs, getD_append_head _ _ _ hwtlen]
            rfl
          have hs0 : s0 = word.getD len 0 := by
            rw [← hgd]; exact hr'eqw x hx
          rw [htakes, hs, hs0]
          exact (List.prefix_append_right_inj (word.take len)).mpr
            ⟨s', by simp⟩
        have hsort' : (((h0 :: t0).dropWhile
              (fun e => (key e).getD len 0 < word.getD len 0)).takeWhile
              (fun e => ¬ word.getD len 0 < (key e).getD len 0)).Pairwise
            (fun a b => lexLeB (key a) (key b) = true) :=
          hsortrest.sublist ((List.takeWhile_sublist _).trans
            (List.dropWhile_sublist _))
        have ha1 : 1 ≤ len + 1 := by omega
        have ha2 : len + 1 ≤ word.length := by omega
        have ha3 : word.length - (len + 1) < fuel := by omega
        rw [ih (len + 1) _ ha1 ha2 ha3 hprenext hsort']
        -- the dropped and cut-off parts contain no prefixes of the word
        have hgdpre : ∀ x, key x <+: word → len < (key x).length →
            (key x).getD len 0 = word.getD len 0 := by
          intro x hxp hlt
          obtain ⟨t, ht⟩ := hxp
          have hw : word.getD len 0 = (key x ++ t).getD len 0 := by
            rw [ht]
          rw [hw, List.getD_eq_getElem?_getD (key x) len 0,
              List.getD_eq_getElem?_getD (key x ++ t) len 0,
              List.getElem?_append_left hlt]
        have hfild1 : ((h0 :: t0).takeWhile
              (fun e => (key e).getD len 0 < word.getD len 0)).filter
              (fun e => decide (key e <+: word)) = [] := by
          refine List.filter_eq_nil_iff.mpr (fun a ha => ?_)
          have hlt : (key a).getD len 0 < word.getD len 0 := by
            simpa using List.mem_takeWhile_imp ha
          simp only [decide_eq_true_eq]
          intro hc
          have hglen : len < (key a).length :=
            hrestlong a (hd ▸ (List.takeWhile_sublist _).mem ha)
          rw [hgdpre a hc hglen] at hlt
          exact absurd hlt (lt_irrefl _)
        have hfild2 : (((h0 :: t0).dropWhile
              (fun e => (key e).getD len 0 < word.getD len 0)).dropWhile
              (fun e => ¬ word.getD len 0 < (key e).getD len 0)).filter
              (fun e => decide (key e <+: word)) = [] := by
          refine List.filter_eq_nil_iff.mpr (fun a ha => ?_)
          have hmono2 : ((h0 :: t0).dropWhile
              (fun e => (key e).getD len 0 < word.getD len 0)).Pairwise
              (fun a b => (key a).getD len 0 ≤ (key b).getD len 0) :=
            hmono.sublist (List.dropWhile_sublist _)
          have hgt := mono_dropWhile_bound (fun e => (key e).getD len 0)
            (fun e => decide (¬ word.getD len 0 < (key e).getD len 0))
            _ hmono2 (word.getD len 0 + 1)
            (fun y hy => by simpa using hy) a ha
          simp only [decide_eq_true_eq]
          intro hc
          have hglen : len < (key a).length :=
            hrestlong a (hd ▸ (List.dropWhile_sublist _).mem
              ((List.dropWhile_sublist _).mem ha))
          have hgt2 : word.getD len 0 + 1 ≤ (key a).getD len 0 := hgt
          rw [hgdpre a hc hglen] at hgt2
          exact Nat.not_succ_le_self _ hgt2
        conv_rhs => rw [hrsplit, List.filter_append, hfilhit]
        have hsplit2 : (h0 :: t0).filter (fun e => decide (key e <+: word))
            = (((h0 :: t0).dropWhile
                (fun e => (key e).getD len 0 < word.getD len 0)).takeWhile
                (fun e => ¬ word.getD len 0 < (key e).getD len 0)).filter
              (fun e => decide (key e <+: word)) := by
          conv_lhs => rw [← List.takeWhile_append_dropWhile
            (fun e => decide ((key e).getD len 0 < word.getD len 0))
            (h0 :: t0)]
          rw [List.filter_append, hfild1, List.nil_append]
          conv_lhs => rw [← List.takeWhile_append_dropWhile
            (fun e => decide (¬ word.getD len 0 < (key e).getD len 0))
            ((h0 :: t0).dropWhile
              (fun e => (key e).getD len 0 < word.getD len 0))]
          rw [List.filter_append, hfild2, List.append_nil]
        rw [hsplit2]

/-- A nonempty string is never lexicographically at most the empty
string. -/
theorem lexLeB_nil_right {a : WStr} (h : a ≠ []) :
    lexLeB a [] = false := by
  rcases a with _ | ⟨x, xs⟩
  · exact absurd rfl h
  · rfl

/-- In a sorted list, everything after the leading empty keys has a
nonempty key. -/
theorem dropWhile_empty_keys_ne (key : α → WStr) (table : List α)
    (hsort : table.Pairwise (fun a b => lexLeB (key a) (key b) = true)) :
    ∀ x ∈ table.dropWhile (fun e => key e = []), key x ≠ [] := by
  intro x hx
  rcases hd : table.dropWhile (fun e => key e = []) with _ | ⟨h0, t0⟩
  · rw [hd] at hx; cases hx
  · have hh0 : key h0 ≠ [] := by
      have := dropWhile_head_false _ table hd
      simpa using this
    rw [hd] at hx
    rcases List.mem_cons.mp hx with h | h
    · rw [h]; exact hh0
    · intro hc
      have hsub : (h0 :: t0).Pairwise
          (fun a b => lexLeB (key a) (key b) = true) := by
        have := hsort.sublist (List.dropWhile_sublist
          (fun e => decide (key e = [])))
        rwa [hd] at this
      have hle : lexLeB (key h0) (key x) = true :=
        (List.pairwise_cons.mp hsub).1 x h
      rw [hc, lexLeB_nil_right hh0] at hle
      exact Bool.false_ne_true hle

/-- Sorted nonempty keys have nondecreasing first characters. -/
theorem heads_mono (key : α → WStr) (l : List α)
    (hne : ∀ x ∈ l, key x ≠ [])
    (hsort : l.Pairwise (fun a b => lexLeB (key a) (key b) = true)) :
    l.Pairwise (fun a b => (key a).headD 0 ≤ (key b).headD 0) := by
  refine List.Pairwise.imp_of_mem ?_ hsort
  intro a b ha hb hab
  rcases hka : key a with _ | ⟨a0, as⟩
  · exact absurd hka (hne a ha)
  rcases hkb : key b with _ | ⟨b0, bs⟩
  · exact absurd hkb (hne b hb)
  rw [hka, hkb] at hab
  simpa using lexLeB_head_le hab

/-- The first-letter index lookup: a found group collects exactly the
entries whose key starts with the letter; an absent letter has no such
entries. -/
theorem buildGroups_find (key : α → WStr) :
    ∀ fuel R, R.length ≤ fuel →
      (∀ x ∈ R, key x ≠ []) →
      R.Pairwise (fun a b => lexLeB (key a) (key b) = true) →
      ∀ c : Nat,
      (∀ g, (buildGroups key fuel R).find? (fun g2 => g2.1 = c) = some g →
        g.2 = R.filter (fun x => (key x).headD 0 = c)) ∧
      ((buildGroups key fuel R).find? (fun g2 => g2.1 = c) = none →
        R.filter (fun x => (key x).headD 0 = c) = []) := by
  intro fuel
  induction fuel with
  | zero =>
    intro R hfuel hne hsort c
    have hR : R = [] := List.length_eq_zero.mp (by omega)
    subst hR
    exact ⟨(fun g hg => nomatch hg), fun _ => rfl⟩
  | succ fuel ih =>
    intro R hfuel hne hsort c
    rcases R with _ | ⟨e, es⟩
    · exact ⟨(fun g hg => nomatch hg), fun _ => rfl⟩
    · have hmono := heads_mono key (e :: es) hne hsort
      have hgrp_eq : ∀ x ∈ (e :: es).takeWhile
          (fun y => ¬ (key e).headD 0 < (key y).headD 0),
          (key x).headD 0 = (key e).headD 0 := by
        intro x hx
        have hle : ¬ (key e).headD 0 < (key x).headD 0 := by
          simpa using List.mem_takeWhile_imp hx
        have hxmem : x ∈ e :: es := (List.takeWhile_sublist _).mem hx
        rcases List.mem_cons.mp hxmem with h | h
        · rw [h]
        · have hge : (key e).headD 0 ≤ (key x).headD 0 :=
            (List.pairwise_cons.mp hmono).1 x h
          exact Nat.le_antisymm (Nat.not_lt.mp hle) hge
      have hrest_gt : ∀ x ∈ (e :: es).dropWhile
          (fun y => ¬ (key e).headD 0 < (key y).headD 0),
          (key e).headD 0 < (key x).headD 0 := by
        intro x hx
        have hbnd : (key e).headD 0 + 1 ≤ (key x).headD 0 :=
          mono_dropWhile_bound (fun y => (key y).headD 0)
            (fun y => decide (¬ (key e).headD 0 < (key y).headD 0))
            (e :: es) hmono ((key e).headD 0 + 1)
            (fun y hy => by simpa using hy) x hx
        exact hbnd
      have hsplitR : e :: es = (e :: es).takeWhile
            (fun y => ¬ (key e).headD 0 < (key y).headD 0)
          ++ (e :: es).dropWhile
            (fun y => ¬ (key e).headD 0 < (key y).headD 0) :=
        (List.takeWhile_append_dropWhile _ _).symm
      rw [buildGroups]
      by_cases hc : (key e).headD 0 = c
      · constructor
        · intro g hg
          rw [List.find?_cons] at hg
          rw [show (decide (((key e).headD 0,
              (e :: es).takeWhile
                (fun y => ¬ (key e).headD 0 < (key y).headD 0)).1 = c))
            = true from by simpa using hc] at hg
          cases hg
          conv_rhs => rw [hsplitR, List.filter_append]
          rw [List.filter_eq_self.mpr (fun a ha => by
                simp only [decide_eq_true_eq]
                rw [hgrp_eq a ha]
                exact hc),
              List.filter_eq_nil_iff.mpr (fun a ha => by
                have h7 := hrest_gt a ha
                simp only [decide_eq_true_eq]
                intro hcc
                rw [hcc, ← hc] at h7
                exact lt_irrefl _ h7),
              List.append_nil]
        · intro hg
          rw [List.find?_cons] at hg
          rw [show (decide (((key e).headD 0,
              (e :: es).takeWhile
                (fun y => ¬ (key e).headD 0 < (key y).headD 0)).1 = c))
            = true from by simpa using hc] at hg
          cases hg
      · have hpc : (decide (((key e).headD 0,
            (e :: es).takeWhile
              (fun y => ¬ (key e).headD 0 < (key y).headD 0)).1 = c))
            = false := by simpa using hc
        have hgrplen : 1 ≤ ((e :: es).takeWhile
            (fun y => ¬ (key e).headD 0 < (key y).headD 0)).length := by
          rw [List.takeWhile_cons]
          rw [if_pos (by simp)]
          simp
        have hlenR : (e :: es).length
            = ((e :: es).takeWhile
                (fun y => ¬ (key e).headD 0 < (key y).headD 0)).length
              + ((e :: es).dropWhile
                (fun y => ¬ (key e).headD 0 < (key y).headD 0)).length := by
          conv_lhs => rw [hsplitR]
          rw [List.length_append]
        have hfuel2 : ((e :: es).dropWhile
            (fun y => ¬ (key e).headD 0 < (key y).headD 0)).length
            ≤ fuel := by
          have h5 := hlenR
          have h6 := hfuel
          simp only [List.length_cons] at h5 h6
          omega
        have hne2 : ∀ x ∈ (e :: es).dropWhile
            (fun y => ¬ (key e).headD 0 < (key y).headD 0), key x ≠ [] :=
          fun x hx => hne x ((List.dropWhile_sublist _).mem hx)
        have hsort2 := hsort.sublist (List.dropWhile_sublist
          (fun y => decide (¬ (key e).headD 0 < (key y).headD 0)))
        obtain ⟨ih1, ih2⟩ := ih ((e :: es).dropWhile
          (fun y => ¬ (key e).headD 0 < (key y).headD 0))
          hfuel2 hne2 hsort2 c
        have hfilgrp : ((e :: es).takeWhile
            (fun y => ¬ (key e).headD 0 < (key y).headD 0)).filter
            (fun x => (key x).headD 0 = c) = [] :=
          List.filter_eq_nil_iff.mpr (fun a ha => by
            simp only [decide_eq_true_eq]
            rw [hgrp_eq a ha]
            exact hc)
        have hfilR : (e :: es).filter (fun x => (key x).headD 0 = c)
            = ((e :: es).dropWhile
                (fun y => ¬ (key e).headD 0 < (key y).headD 0)).filter
              (fun x => (key x).headD 0 = c) := by
          conv_lhs => rw [hsplitR, List.filter_append, hfilgrp]
          rw [List.nil_append]
        constructor
        · intro g hg
          rw [List.find?_cons, hpc] at hg
          rw [hfilR]
          exact ih1 g hg
        · intro hg
          rw [List.find?_cons, hpc] at hg
          rw [hfilR]
          exact ih2 hg

/-- On a sorted table, `for_each_prefixes_of` yields exactly the
entries whose key is a prefix of the word, in table order. -/
theorem for_each_prefixes_eq_filter (α : Type) (key : α → WStr)
    (table : List α) (word : WStr)
    (hsort : table.Pairwise (fun a b => lexLeB (key a) (key b) = true)) :
    for_each_prefixes_of key table word
      = table.filter (fun e => decide (key e <+: word)) := by
  have hEall : ∀ x ∈ table.takeWhile (fun e => key e = []), key x = [] :=
    fun x hx => by simpa using List.mem_takeWhile_imp hx
  have hRne := dropWhile_empty_keys_ne key table hsort
  have hsortR := hsort.sublist (List.dropWhile_sublist
    (fun e => decide (key e = [])))
  have hsplitT : table = table.takeWhile (fun e => key e = [])
      ++ table.dropWhile (fun e => key e = []) :=
    (List.takeWhile_append_dropWhile _ _).symm
  have hfilE : (table.takeWhile (fun e => key e = [])).filter
        (fun e => decide (key e <+: word))
      = table.takeWhile (fun e => key e = []) :=
    List.filter_eq_self.mpr (fun a ha => by
      simp only [decide_eq_true_eq]
      rw [hEall a ha]
      exact List.nil_prefix)
  unfold for_each_prefixes_of
  conv_rhs => rw [hsplitT, List.filter_append, hfilE]
  congr 1
  rcases hR : table.dropWhile (fun e => key e = []) with _ | ⟨r0, rs⟩
  · rw [if_pos List.isEmpty_nil]
    simp
  · rw [if_neg (by rw [List.isEmpty_cons]; exact Bool.false_ne_true)]
    have hRne2 : ∀ x ∈ r0 :: rs, key x ≠ [] :=
      fun x hx => hRne x (hR ▸ hx)
    have hsortR2 : (r0 :: rs).Pairwise
        (fun a b => lexLeB (key a) (key b) = true) := by
      rw [hR] at hsortR
      exact hsortR
    rcases word with _ | ⟨w0, w'⟩
    · -- empty word: nothing in the nonempty-key part can match
      rw [innerIterate]
      symm
      refine List.filter_eq_nil_iff.mpr (fun a ha => ?_)
      simp only [decide_eq_true_eq]
      intro hc
      exact hRne2 a ha (List.prefix_nil.mp hc)
    · rw [innerIterate]
      obtain ⟨ihsome, ihnone⟩ := buildGroups_find key
        (r0 :: rs).length (r0 :: rs) (le_refl _) hRne2 hsortR2 w0
      have hprefhead : ∀ x ∈ r0 :: rs, key x <+: w0 :: w' →
          (key x).headD 0 = w0 := by
        intro x hx hp
        rcases hkx : key x with _ | ⟨k0, ks⟩
        · exact absurd hkx (hRne2 x hx)
        · rw [hkx] at hp
          obtain ⟨t, ht⟩ := hp
          have hk0 : k0 = w0 := by
            have := congrArg (fun l => l.headD 0) ht
            simpa using this
          rw [hk0]
          rfl
      rcases hfind : (buildGroups key (r0 :: rs).length
          (r0 :: rs)).find? (fun g2 => g2.1 = w0) with _ | ⟨g⟩
      · rw [hfind]
        trans ([] : List α)
        · rfl
        · symm
          refine List.filter_eq_nil_iff.mpr (fun a ha => ?_)
          simp only [decide_eq_true_eq]
          intro hc
          have hnone := List.filter_eq_nil_iff.mp (ihnone hfind) a ha
          exact hnone (decide_eq_true (hprefhead a ha hc))
      · rw [hfind]
        trans (collectLoop key (w0 :: w') (w0 :: w').length 1 g.2)
        · rfl
        have hg2 := ihsome g hfind
        have hg2pre : ∀ x ∈ g.2, (w0 :: w').take 1 <+: key x := by
          intro x hx
          rw [hg2] at hx
          have hxmem : x ∈ r0 :: rs := (List.filter_sublist _).mem hx
          have hhead : (key x).headD 0 = w0 := by
            simpa using (List.mem_filter.mp hx).2
          rcases hkx : key x with _ | ⟨k0, ks⟩
          · exact absurd hkx (hRne2 x hxmem)
          · have hk0 : k0 = w0 := by
              rw [hkx] at hhead
              simpa using hhead
            rw [List.take_cons, List.take_zero, hk0]
            · exact ⟨ks, rfl⟩
            · exact Nat.zero_lt_one
        have hg2sort : g.2.Pairwise
            (fun a b => lexLeB (key a) (key b) = true) := by
          rw [hg2]
          exact hsortR2.sublist (List.filter_sublist _)
        rw [collectLoop_eq_filter key (w0 :: w') (w0 :: w').length 1
          g.2 (le_refl 1) (Nat.succ_le_succ (Nat.zero_le _))
          (Nat.lt_succ_self _) hg2pre hg2sort]
        rw [hg2, List.filter_filter]
        refine List.filter_congr (fun x hx => ?_)
        by_cases hp : key x <+: w0 :: w'
        · rw [decide_eq_true hp,
            decide_eq_true (hprefhead x hx hp), Bool.and_self]
        · rw [decide_eq_false hp, Bool.false_and]

/-- **C7.**  On a table sorted by (transformed) key — the invariant
`sort()` establishes and the constructors maintain — iterating the
prefixes of a word yields exactly the table entries whose key
(`appending`, already reversed for the suffix index) is a prefix of the
word; the output is in non-decreasing order of key length, and the
entries with empty key come first. -/
theorem claim_C7_iterate_prefixes (α : Type) (key : α → WStr)
    (table : List α) (word : WStr)
    (hsort : table.Pairwise (fun a b => lexLeB (key a) (key b) = true)) :
    for_each_prefixes_of key table word
      = table.filter (fun e => decide (key e <+: word)) ∧
    (for_each_prefixes_of key table word).Pairwise
      (fun a b => (key a).length ≤ (key b).length) ∧
    ∃ l2, for_each_prefixes_of key table word
        = table.filter (fun e => key e = []) ++ l2 ∧
      ∀ x ∈ l2, key x ≠ [] := by
  have hEall : ∀ x ∈ table.takeWhile (fun e => key e = []), key x = [] :=
    fun x hx => by simpa using List.mem_takeWhile_imp hx
  have hRne := dropWhile_empty_keys_ne key table hsort
  have hsortR := hsort.sublist (List.dropWhile_sublist
    (fun e => decide (key e = [])))
  have hsplitT : table = table.takeWhile (fun e => key e = [])
      ++ table.dropWhile (fun e => key e = []) :=
    (List.takeWhile_append_dropWhile _ _).symm
  have hfilE : (table.takeWhile (fun e => key e = [])).filter
        (fun e => decide (key e <+: word))
      = table.takeWhile (fun e => key e = []) :=
    List.filter_eq_self.mpr (fun a ha => by
      simp only [decide_eq_true_eq]
      rw [hEall a ha]
      exact List.nil_prefix)
  have h1 := for_each_prefixes_eq_filter α key table word hsort
  refine ⟨h1, ?_, ?_⟩
  · rw [h1]
    refine List.Pairwise.imp_of_mem ?_
      (hsort.sublist (List.filter_sublist table))
    intro a b ha hb hab
    have hap : key a <+: word := by
      simpa using (List.mem_filter.mp ha).2
    have hbp : key b <+: word := by
      simpa using (List.mem_filter.mp hb).2
    exact length_le_of_lexLeB hap hbp hab
  · refine ⟨(table.dropWhile (fun e => key e = [])).filter
      (fun e => decide (key e <+: word)), ?_, ?_⟩
    · have hfilEmp : table.filter (fun e => key e = [])
          = table.takeWhile (fun e => key e = []) := by
        conv_lhs => rw [hsplitT, List.filter_append]
        rw [List.filter_eq_self.mpr (fun a ha => by
              simpa using hEall a ha),
            List.filter_eq_nil_iff.mpr (fun a ha => by
              simpa using hRne a ha),
            List.append_nil]
      rw [h1, hfilEmp]
      conv_lhs => rw [hsplitT, List.filter_append, hfilE]
    · intro x hx
      exact hRne x ((List.filter_sublist _).mem hx)

/-- Witness for C7: a concrete sorted table and a concrete word. -/
theorem claim_C7_witness :
    ([[], [97], [97, 98], [98]] : List WStr).Pairwise
      (fun a b => lexLeB (id a) (id b) = true) ∧
    (for_each_prefixes_of id ([[], [97], [97, 98], [98]] : List WStr)
        [97, 98, 99]
      = ([[], [97], [97, 98], [98]] : List WStr).filter
          (fun e => decide (id e <+: [97, 98, 99])) ∧
    (for_each_prefixes_of id ([[], [97], [97, 98], [98]] : List WStr)
        [97, 98, 99]).Pairwise
      (fun a b => (id a : WStr).length ≤ (id b : WStr).length) ∧
    ∃ l2, for_each_prefixes_of id
          ([[], [97], [97, 98], [98]] : List WStr) [97, 98, 99]
        = ([[], [97], [97, 98], [98]] : List WStr).filter
            (fun e => id e = []) ++ l2 ∧
      ∀ x ∈ l2, id x ≠ ([] : WStr)) :=
  ⟨by decide, claim_C7_iterate_prefixes WStr id
    [[], [97], [97, 98], [98]] [97, 98, 99] (by decide)⟩

/-! ### C9: affix stripping restores the word
(`To_Root_Unroot_RAII`, aff_data.hxx 604-618; `strip_prefix_only`,
685-721; `strip_suffix_only`, 723-762)

A prefix entry (`Prefix<wchar_t>`, structures.hxx 834-871) turns a word
into its root with `word.replace(0, appending.size(), stripping)` and
back with `word.replace(0, stripping.size(), appending)`; a suffix
entry (structures.hxx 873-913) replaces at the other end.  The `strip_*`
functions wrap every `to_root` in a `To_Root_Unroot_RAII` guard whose
destructor applies `to_derived` on every scope exit — both on `continue`
and on the successful `return`.  We model `std::basic_string::replace`
by `take`/`drop` concatenation, the iteration over
`iterate_prefixes_of` by the list `for_each_prefixes_of` computes
(the iterator re-reads the already-restored word on each `++it`), and
the flag/condition logic by opaque parameters: the claim is about the
word buffer, not about which entry matches.  Only the `stripping` and
`appending` fields are modelled; the remaining fields feed the
abstracted predicates. -/

section AffixStrip

/-- `Prefix<wchar_t>`: the two string fields. -/
structure PfxEntry where
  stripping : WStr
  appending : WStr

/-- `Prefix::to_root`: `word.replace(0, appending.size(), stripping)`. -/
def PfxEntry.to_root (e : PfxEntry) (word : WStr) : WStr :=
  e.stripping ++ word.drop e.appending.length

/-- `Prefix::to_derived`:
`word.replace(0, stripping.size(), appending)`. -/
def PfxEntry.to_derived (e : PfxEntry) (word : WStr) : WStr :=
  e.appending ++ word.drop e.stripping.length

/-- `Suffix<wchar_t>`: the two string fields. -/
structure SfxEntry where
  stripping : WStr
  appending : WStr

/-- `Suffix::to_root`: `word.replace(word.size() - appending.size(),
appending.size(), stripping)`. -/
def SfxEntry.to_root (e : SfxEntry) (word : WStr) : WStr :=
  word.take (word.length - e.appending.length) ++ e.stripping
    ++ word.drop (word.length - e.appending.length + e.appending.length)

/-- `Suffix::to_derived`: `word.replace(word.size() - stripping.size(),
stripping.size(), appending)`. -/
def SfxEntry.to_derived (e : SfxEntry) (word : WStr) : WStr :=
  word.take (word.length - e.stripping.length) ++ e.appending
    ++ word.drop (word.length - e.stripping.length + e.stripping.length)

/-- `To_Root_Unroot_RAII` round trip for a prefix entry: when
`appending` is a prefix of the word (the iterator's guarantee),
`to_derived` undoes `to_root`. -/
theorem pfx_root_unroot (e : PfxEntry) (word : WStr)
    (h : e.appending <+: word) :
    e.to_derived (e.to_root word) = word := by
  obtain ⟨t, ht⟩ := h
  unfold PfxEntry.to_root PfxEntry.to_derived
  rw [← ht, List.drop_left, List.drop_left]

/-- `To_Root_Unroot_RAII` round trip for a suffix entry: when
`appending` is a suffix of the word, `to_derived` undoes `to_root`. -/
theorem sfx_root_unroot (e : SfxEntry) (word : WStr)
    (h : e.appending <:+ word) :
    e.to_derived (e.to_root word) = word := by
  obtain ⟨t, ht⟩ := h
  unfold SfxEntry.to_root SfxEntry.to_derived
  rw [← ht]
  have hlen : (t ++ e.appending).length - e.appending.length
      = t.length := by
    rw [List.length_append]
    omega
  rw [hlen, List.take_left,
      List.drop_eq_nil_of_le (by rw [List.length_append]),
      List.append_nil]
  have hlen2 : (t ++ e.stripping).length - e.stripping.length
      = t.length := by
    rw [List.length_append]
    omega
  rw [hlen2, List.take_left,
      List.drop_eq_nil_of_le (by rw [List.length_append]),
      List.append_nil]

/-- `Dict_Base::strip_prefix_only` (aff_data.hxx 685-721), with the
word threaded explicitly: each candidate entry is skipped by the
validity guards, or the word is rooted, checked, looked up, and
unrooted on every exit path.  `inner` abstracts the loop over
`dic.equal_range(word)` with its flag checks. -/
def strip_prefix_only {β : Type} (onv circ : PfxEntry → Bool)
    (cond : PfxEntry → WStr → Bool)
    (inner : PfxEntry → WStr → Option β) :
    List PfxEntry → WStr → WStr × Option β
  | [], word => (word, none)
  | e :: es, word =>
    if onv e then strip_prefix_only onv circ cond inner es word
    else if circ e then strip_prefix_only onv circ cond inner es word
    else
      if ¬ cond e (e.to_root word) then
        strip_prefix_only onv circ cond inner es
          (e.to_derived (e.to_root word))
      else
        match inner e (e.to_root word) with
        | some r => (e.to_derived (e.to_root word), some r)
        | none => strip_prefix_only onv circ cond inner es
            (e.to_derived (e.to_root word))

/-- `Dict_Base::strip_suffix_only` (aff_data.hxx 723-762): same shape
with one more skip guard (`appending.size() != 0 && m ==
AT_COMPOUND_END && cont_flags.contains(compound_onlyin_flag)`),
abstracted as `extra`. -/
def strip_suffix_only {β : Type} (onv extra circ : SfxEntry → Bool)
    (cond : SfxEntry → WStr → Bool)
    (inner : SfxEntry → WStr → Option β) :
    List SfxEntry → WStr → WStr × Option β
  | [], word => (word, none)
  | e :: es, word =>
    if onv e then strip_suffix_only onv extra circ cond inner es word
    else if extra e then
      strip_suffix_only onv extra circ cond inner es word
    else if circ e then
      strip_suffix_only onv extra circ cond inner es word
    else
      if ¬ cond e (e.to_root word) then
        strip_suffix_only onv extra circ cond inner es
          (e.to_derived (e.to_root word))
      else
        match inner e (e.to_root word) with
        | some r => (e.to_derived (e.to_root word), some r)
        | none => strip_suffix_only onv extra circ cond inner es
            (e.to_derived (e.to_root word))

/-- The prefix-strip loop leaves the word unchanged when every
candidate's `appending` is a prefix of it. -/
theorem strip_prefix_only_restores {β : Type}
    (onv circ : PfxEntry → Bool) (cond : PfxEntry → WStr → Bool)
    (inner : PfxEntry → WStr → Option β) :
    ∀ (es : List PfxEntry) (word : WStr),
      (∀ e ∈ es, e.appending <+: word) →
      (strip_prefix_only onv circ cond inner es word).1 = word := by
  intro es
  induction es with
  | nil => intro word h; rfl
  | cons e es ih =>
    intro word h
    have hrt : e.to_derived (e.to_root word) = word :=
      pfx_root_unroot e word (h e (List.mem_cons_self e es))
    have htail : ∀ x ∈ es, x.appending <+: word :=
      fun x hx => h x (List.mem_cons_of_mem e hx)
    rw [strip_prefix_only]
    by_cases h1 : onv e
    · rw [if_pos h1]; exact ih word htail
    · rw [if_neg h1]
      by_cases h2 : circ e
      · rw [if_pos h2]; exact ih word htail
      · rw [if_neg h2]
        by_cases h3 : ¬ cond e (e.to_root word)
        · rw [if_pos h3, hrt]; exact ih word htail
        · rw [if_neg h3]
          cases hin : inner e (e.to_root word) with
          | some r => exact hrt
          | none => rw [hrt]; exact ih word htail

/-- The suffix-strip loop leaves the word unchanged when every
candidate's `appending` is a suffix of it. -/
theorem strip_suffix_only_restores {β : Type}
    (onv extra circ : SfxEntry → Bool) (cond : SfxEntry → WStr → Bool)
    (inner : SfxEntry → WStr → Option β) :
    ∀ (es : List SfxEntry) (word : WStr),
      (∀ e ∈ es, e.appending <:+ word) →
      (strip_suffix_only onv extra circ cond inner es word).1 = word := by
  intro es
  induction es with
  | nil => intro word h; rfl
  | cons e es ih =>
    intro word h
    have hrt : e.to_derived (e.to_root word) = word :=
      sfx_root_unroot e word (h e (List.mem_cons_self e es))
    have htail : ∀ x ∈ es, x.appending <:+ word :=
      fun x hx => h x (List.mem_cons_of_mem e hx)
    rw [strip_suffix_only]
    by_cases h1 : onv e
    · rw [if_pos h1]; exact ih word htail
    · rw [if_neg h1]
      by_cases h2 : extra e
      · rw [if_pos h2]; exact ih word htail
      · rw [if_neg h2]
        by_cases h3 : circ e
        · rw [if_pos h3]; exact ih word htail
        · rw [if_neg h3]
          by_cases h4 : ¬ cond e (e.to_root word)
          · rw [if_pos h4, hrt]; exact ih word htail
          · rw [if_neg h4]
            cases hin : inner e (e.to_root word) with
            | some r => exact hrt
            | none => rw [hrt]; exact ih word htail

end AffixStrip

/-- **C9.**  Affix stripping leaves its word argument unchanged on
return.  (1)/(2): the `To_Root_Unroot_RAII` round trip restores the
word for every prefix entry whose `appending` is a prefix of it and
every suffix entry whose `appending` is a suffix of it — which is what
`iterate_prefixes_of` / `iterate_suffixes_of` yield on the sorted affix
tables.  (3)/(4): consequently `strip_prefix_only` and
`strip_suffix_only`, iterating those candidates with the guard wrapped
around every exit path, return the word equal to its original value
whether or not a match was found. -/
theorem claim_C9_strip_restores_word (β : Type)
    (onv circ : PfxEntry → Bool) (cond : PfxEntry → WStr → Bool)
    (inner : PfxEntry → WStr → Option β)
    (onvS extraS circS : SfxEntry → Bool)
    (condS : SfxEntry → WStr → Bool)
    (innerS : SfxEntry → WStr → Option β)
    (ptable : List PfxEntry) (stable : List SfxEntry) (word : WStr) :
    (∀ (e : PfxEntry) (w : WStr), e.appending <+: w →
      e.to_derived (e.to_root w) = w) ∧
    (∀ (e : SfxEntry) (w : WStr), e.appending <:+ w →
      e.to_derived (e.to_root w) = w) ∧
    (ptable.Pairwise
        (fun a b => lexLeB a.appending b.appending = true) →
      (strip_prefix_only onv circ cond inner
        (for_each_prefixes_of PfxEntry.appending ptable word)
        word).1 = word) ∧
    (stable.Pairwise (fun a b =>
        lexLeB a.appending.reverse b.appending.reverse = true) →
      (strip_suffix_only onvS extraS circS condS innerS
        (for_each_prefixes_of (fun e => e.appending.reverse) stable
          word.reverse) word).1 = word) := by
  refine ⟨pfx_root_unroot, sfx_root_unroot, ?_, ?_⟩
  · intro hsort
    refine strip_prefix_only_restores onv circ cond inner _ word ?_
    intro e he
    rw [for_each_prefixes_eq_filter PfxEntry
      PfxEntry.appending ptable word hsort] at he
    simpa using (List.mem_filter.mp he).2
  · intro hsort
    refine strip_suffix_only_restores onvS extraS circS condS innerS
      _ word ?_
    intro e he
    rw [for_each_prefixes_eq_filter SfxEntry
      (fun e => e.appending.reverse) stable word.reverse hsort] at he
    have := (List.mem_filter.mp he).2
    simp only [decide_eq_true_eq] at this
    exact List.reverse_prefix.mp this

/-- Witness for C9 at a concrete prefix entry (strip "s", append "a"),
suffix entry (strip "", append "b"), tables and word "ab". -/
theorem claim_C9_witness :
    (PfxEntry.appending ⟨[115], [97]⟩ <+: [97, 98] ∧
      PfxEntry.to_derived ⟨[115], [97]⟩
        (PfxEntry.to_root ⟨[115], [97]⟩ [97, 98]) = [97, 98]) ∧
    (SfxEntry.appending ⟨[], [98]⟩ <:+ [97, 98] ∧
      SfxEntry.to_derived ⟨[], [98]⟩
        (SfxEntry.to_root ⟨[], [98]⟩ [97, 98]) = [97, 98]) ∧
    (([⟨[115], [97]⟩] : List PfxEntry).Pairwise
        (fun a b => lexLeB a.appending b.appending = true) ∧
      (strip_prefix_only (fun _ => false) (fun _ => false)
        (fun _ _ => true) (fun _ _ => (none : Option Nat))
        (for_each_prefixes_of PfxEntry.appending
          [⟨[115], [97]⟩] [97, 98]) [97, 98]).1 = [97, 98]) ∧
    (([⟨[], [98]⟩] : List SfxEntry).Pairwise (fun a b =>
        lexLeB a.appending.reverse b.appending.reverse = true) ∧
      (strip_suffix_only (fun _ => false) (fun _ => false)
        (fun _ => false) (fun _ _ => true)
        (fun _ _ => (none : Option Nat))
        (for_each_prefixes_of (fun e => SfxEntry.appending e |>.reverse)
          [⟨[], [98]⟩] ([97, 98] : WStr).reverse) [97, 98]).1
        = [97, 98]) :=
  ⟨⟨by decide, (claim_C9_strip_restores_word Nat (fun _ => false)
      (fun _ => false) (fun _ _ => true) (fun _ _ => none)
      (fun _ => false) (fun _ => false) (fun _ => false)
      (fun _ _ => true) (fun _ _ => none)
      [⟨[115], [97]⟩] [⟨[], [98]⟩] [97, 98]).1
      ⟨[115], [97]⟩ [97, 98] (by decide)⟩,
   ⟨by decide, (claim_C9_strip_restores_word Nat (fun _ => false)
      (fun _ => false) (fun _ _ => true) (fun _ _ => none)
      (fun _ => false) (fun _ => false) (fun _ => false)
      (fun _ _ => true) (fun _ _ => none)
      [⟨[115], [97]⟩] [⟨[], [98]⟩] [97, 98]).2.1
      ⟨[], [98]⟩ [97, 98] (by decide)⟩,
   ⟨by decide, (claim_C9_strip_restores_word Nat (fun _ => false)
      (fun _ => false) (fun _ _ => true) (fun _ _ => none)
      (fun _ => false) (fun _ => false) (fun _ => false)
      (fun _ _ => true) (fun _ _ => none)
      [⟨[115], [97]⟩] [⟨[], [98]⟩] [97, 98]).2.2.1 (by decide)⟩,
   ⟨by decide, (claim_C9_strip_restores_word Nat (fun _ => false)
      (fun _ => false) (fun _ _ => true) (fun _ _ => none)
      (fun _ => false) (fun _ => false) (fun _ => false)
      (fun _ _ => true) (fun _ _ => none)
      [⟨[115], [97]⟩] [⟨[], [98]⟩] [97, 98]).2.2.2 (by decide)⟩⟩

/-! ### C3, C4: the suggestion pipeline
(`suggest_priv`, aff_data.hxx 2267-2283; `add_sug_if_correct`,
2285-2300; `try_rep_suggestion`, 2355-2372; `two_words_suggest`,
2627-2662)

`suggest_priv` runs thirteen strategies over the shared output list
`out`.  Auditing every `out.push_back` in that region shows that all of
them happen in exactly three places: inside `add_sug_if_correct`
(through which every strategy except the two below funnels each
candidate), the split push at the end of `try_rep_suggestion`, and the
two guarded pushes of `two_words_suggest`.  We embed those three
primitives faithfully — the word checks (`check_word(_, SMALL)`,
`check_simple_word`), the flags and `try_chars` are collaborator
parameters — and model a run of the suggestor as a sequence of
applications of these primitives to the output list, starting empty.
The `j = word.find(' ')` scan of `try_rep_suggestion` is modelled by
an explicit space-membership guard plus `splitSp`, which splits at
every space; the scan checks every segment before a space and never
the final one. -/

section Suggest

/-- `Dict_Base::add_sug_if_correct` (aff_data.hxx 2285-2300): already
present counts as success; otherwise the word must pass
`check_word(word, Casing::SMALL)` and carry neither
`forbiddenword_flag` nor (under `forbid_warn`) `warn_flag`; only then
it is appended. -/
def add_sug_if_correct (cw : WStr → Option (List Flag))
    (ff wf : Flag) (fwarn : Bool) (word : WStr) (out : List WStr) :
    List WStr × Bool :=
  if word ∈ out then (out, true)
  else
    match cw word with
    | none => (out, false)
    | some res =>
      if ff ∈ res then (out, false)
      else if fwarn ∧ wf ∈ res then (out, false)
      else (out ++ [word], true)

/-- Split a string at every space (char 32); the final segment is the
part after the last space. -/
def splitSp : WStr → List WStr
  | [] => [[]]
  | c :: cs =>
    if c = 32 then [] :: splitSp cs
    else
      match splitSp cs with
      | [] => [[c]]
      | p :: ps => (c :: p) :: ps

/-- `Dict_Base::try_rep_suggestion` (aff_data.hxx 2355-2372): try the
whole word through `add_sug_if_correct`; failing that, if the word
contains a space and every segment *before* a space passes
`check_word(_, SMALL)` — the final segment is never checked — push the
word without any further check. -/
def try_rep_suggestion (cw : WStr → Option (List Flag))
    (ff wf : Flag) (fwarn : Bool) (word : WStr) (out : List WStr) :
    List WStr :=
  match add_sug_if_correct cw ff wf fwarn word out with
  | (out2, true) => out2
  | (out2, false) =>
    if ¬ word.contains 32 then out2
    else if ((splitSp word).dropLast).all (fun p => (cw p).isSome) then
      out2 ++ [word]
    else out2

/-- Hyphen variant push of `two_words_suggest` (aff_data.hxx
2652-2658): only when both parts have length over one and `try_chars`
contains `a` or `-`; guarded by membership. -/
def twoWordsHyphen (tc : WStr) (backup : WStr) (i : Nat)
    (out : List WStr) : List WStr :=
  if 1 < i + 1 ∧ 1 < backup.length - (i + 1) ∧ tc ≠ [] ∧
      (97 ∈ tc ∨ 45 ∈ tc) then
    if (backup.take (i + 1) ++ 45 :: backup.drop (i + 1)) ∈ out then out
    else out ++ [backup.take (i + 1) ++ 45 :: backup.drop (i + 1)]
  else out

/-- One split position of `two_words_suggest` (aff_data.hxx
2636-2660): both halves must pass `check_simple_word`; the space
variant is pushed if not already present, then possibly the hyphen
variant. -/
def twoWordsStep (csw : WStr → Bool) (tc : WStr) (backup : WStr)
    (out : List WStr) (i : Nat) : List WStr :=
  if ¬ csw (backup.take (i + 1)) then out
  else if ¬ csw (backup.drop (i + 1)) then out
  else
    twoWordsHyphen tc backup i
      (if (backup.take (i + 1) ++ 32 :: backup.drop (i + 1)) ∈ out
       then out
       else out ++ [backup.take (i + 1) ++ 32 :: backup.drop (i + 1)])

/-- `Dict_Base::two_words_suggest` (aff_data.hxx 2627-2662): for every
split position of a word of length at least two, try both halves. -/
def two_words_suggest (csw : WStr → Bool) (tc : WStr) (word : WStr)
    (out : List WStr) : List WStr :=
  if word.length < 2 then out
  else (List.range (word.length - 1)).foldl
    (twoWordsStep csw tc word) out

/-- One output-extending operation of the suggestion pipeline: a
candidate through `add_sug_if_correct` (all thirteen strategies), a
replacement candidate through `try_rep_suggestion` (`rep_suggest`), or
a run of `two_words_suggest`. -/
inductive SugOp where
  | add : WStr → SugOp
  | rep : WStr → SugOp
  | two : WStr → SugOp

/-- Apply one pipeline operation to the output list. -/
def SugOp.apply (cw : WStr → Option (List Flag)) (csw : WStr → Bool)
    (ff wf : Flag) (fwarn : Bool) (tc : WStr) (out : List WStr) :
    SugOp → List WStr
  | .add w => (add_sug_if_correct cw ff wf fwarn w out).1
  | .rep w => try_rep_suggestion cw ff wf fwarn w out
  | .two w => two_words_suggest csw tc w out

end Suggest

/-- Appending a fresh element keeps a list duplicate-free. -/
theorem nodup_append_singleton {α : Type} {l : List α} {a : α}
    (h : l.Nodup) (ha : a ∉ l) : (l ++ [a]).Nodup := by
  rw [List.nodup_append]
  refine ⟨h, List.nodup_singleton a, ?_⟩
  intro x hx hxa
  rw [List.mem_singleton.mp hxa] at hx
  exact ha hx

/-- When `add_sug_if_correct` reports failure the output is unchanged
and the word was not already present. -/
theorem add_sug_false (cw : WStr → Option (List Flag)) (ff wf : Flag)
    (fwarn : Bool) (w : WStr) (out : List WStr) :
    (add_sug_if_correct cw ff wf fwarn w out).2 = false →
    (add_sug_if_correct cw ff wf fwarn w out).1 = out ∧ w ∉ out := by
  unfold add_sug_if_correct
  by_cases hm : w ∈ out
  · rw [if_pos hm]
    intro h
    exact absurd h (by simp)
  · rw [if_neg hm]
    cases hcw : cw w with
    | none => exact fun _ => ⟨rfl, hm⟩
    | some res =>
      simp only []
      by_cases h1 : ff ∈ res
      · rw [if_pos h1]
        exact fun _ => ⟨rfl, hm⟩
      · rw [if_neg h1]
        by_cases h2 : fwarn ∧ wf ∈ res
        · rw [if_pos h2]
          exact fun _ => ⟨rfl, hm⟩
        · rw [if_neg h2]
          intro h
          exact absurd h (by simp)

/-- `add_sug_if_correct` keeps the output duplicate-free. -/
theorem add_sug_nodup (cw : WStr → Option (List Flag)) (ff wf : Flag)
    (fwarn : Bool) (w : WStr) {out : List WStr} (h : out.Nodup) :
    ((add_sug_if_correct cw ff wf fwarn w out).1).Nodup := by
  unfold add_sug_if_correct
  by_cases hm : w ∈ out
  · rw [if_pos hm]
    exact h
  · rw [if_neg hm]
    cases hcw : cw w with
    | none => exact h
    | some res =>
      simp only []
      by_cases h1 : ff ∈ res
      · rw [if_pos h1]
        exact h
      · rw [if_neg h1]
        by_cases h2 : fwarn ∧ wf ∈ res
        · rw [if_pos h2]
          exact h
        · rw [if_neg h2]
          exact nodup_append_singleton h hm

/-- `try_rep_suggestion` keeps the output duplicate-free: its unguarded
push only happens after `add_sug_if_correct` returned false, which
implies the word is not present. -/
theorem try_rep_nodup (cw : WStr → Option (List Flag)) (ff wf : Flag)
    (fwarn : Bool) (w : WStr) {out : List WStr} (h : out.Nodup) :
    (try_rep_suggestion cw ff wf fwarn w out).Nodup := by
  unfold try_rep_suggestion
  cases hadd : add_sug_if_correct cw ff wf fwarn w out with
  | mk out2 b =>
    have hfst : (add_sug_if_correct cw ff wf fwarn w out).1 = out2 := by
      rw [hadd]
    cases b with
    | true =>
      rw [← hfst]
      exact add_sug_nodup cw ff wf fwarn w h
    | false =>
      obtain ⟨heq, hnm⟩ := add_sug_false cw ff wf fwarn w out
        (by rw [hadd])
      have hout2 : out2 = out := by rw [← hfst, heq]
      simp only []
      by_cases hsp : ¬ w.contains 32
      · rw [if_pos hsp, hout2]
        exact h
      · rw [if_neg hsp]
        by_cases hall : ((splitSp w).dropLast).all
            (fun p => (cw p).isSome)
        · rw [if_pos hall, hout2]
          exact nodup_append_singleton h hnm
        · rw [if_neg hall, hout2]
          exact h

/-- The hyphen push of `two_words_suggest` keeps the output
duplicate-free. -/
theorem twoWordsHyphen_nodup (tc : WStr) (backup : WStr) (i : Nat)
    {out : List WStr} (h : out.Nodup) :
    (twoWordsHyphen tc backup i out).Nodup := by
  unfold twoWordsHyphen
  split
  · split
    · exact h
    · next hm => exact nodup_append_singleton h hm
  · exact h

/-- One split position of `two_words_suggest` keeps the output
duplicate-free. -/
theorem twoWordsStep_nodup (csw : WStr → Bool) (tc : WStr)
    (backup : WStr) {out : List WStr} (h : out.Nodup) (i : Nat) :
    (twoWordsStep csw tc backup out i).Nodup := by
  unfold twoWordsStep
  split
  · exact h
  · split
    · exact h
    · refine twoWordsHyphen_nodup tc backup i ?_
      split
      · exact h
      · next hm => exact nodup_append_singleton h hm

/-- A fold preserves any invariant its step preserves. -/
theorem foldl_preserves {α β : Type} (P : β → Prop) (f : β → α → β)
    (hf : ∀ b a, P b → P (f b a)) :
    ∀ (l : List α) (b : β), P b → P (l.foldl f b) := by
  intro l
  induction l with
  | nil => exact fun b hb => hb
  | cons a l ih =>
    intro b hb
    exact ih (f b a) (hf b a hb)

/-- `two_words_suggest` keeps the output duplicate-free. -/
theorem two_words_nodup (csw : WStr → Bool) (tc : WStr) (w : WStr)
    {out : List WStr} (h : out.Nodup) :
    (two_words_suggest csw tc w out).Nodup := by
  unfold two_words_suggest
  split
  · exact h
  · exact foldl_preserves List.Nodup (twoWordsStep csw tc w)
      (fun b a hb => twoWordsStep_nodup csw tc w hb a)
      (List.range (w.length - 1)) out h

/-- Membership after `add_sug_if_correct`: old entries, or the new word
which then passed the check and the flag filters. -/
theorem add_sug_mem (cw : WStr → Option (List Flag)) (ff wf : Flag)
    (fwarn : Bool) (w : WStr) (out : List WStr) :
    ∀ s ∈ (add_sug_if_correct cw ff wf fwarn w out).1,
      s ∈ out ∨ (s = w ∧ ∃ res, cw s = some res ∧ ff ∉ res ∧
        ¬ (fwarn ∧ wf ∈ res)) := by
  unfold add_sug_if_correct
  by_cases hm : w ∈ out
  · rw [if_pos hm]
    exact fun s hs => Or.inl hs
  · rw [if_neg hm]
    cases hcw : cw w with
    | none => exact fun s hs => Or.inl hs
    | some res =>
      simp only []
      by_cases h1 : ff ∈ res
      · rw [if_pos h1]
        exact fun s hs => Or.inl hs
      · rw [if_neg h1]
        by_cases h2 : fwarn ∧ wf ∈ res
        · rw [if_pos h2]
          exact fun s hs => Or.inl hs
        · rw [if_neg h2]
          intro s hs
          rcases List.mem_append.mp hs with h | h
          · exact Or.inl h
          · have hsw : s = w := List.mem_singleton.mp h
            exact Or.inr ⟨hsw, res, by rw [hsw, hcw], h1, h2⟩

/-- Membership after `try_rep_suggestion`: old entries, a word that
passed the checked path of `add_sug_if_correct`, or a word containing
a space (the split path, whose final segment is unchecked). -/
theorem try_rep_mem (cw : WStr → Option (List Flag)) (ff wf : Flag)
    (fwarn : Bool) (w : WStr) (out : List WStr) :
    ∀ s ∈ try_rep_suggestion cw ff wf fwarn w out,
      s ∈ out ∨ (∃ res, cw s = some res ∧ ff ∉ res ∧
        ¬ (fwarn ∧ wf ∈ res)) ∨ 32 ∈ s := by
  unfold try_rep_suggestion
  cases hadd : add_sug_if_correct cw ff wf fwarn w out with
  | mk out2 b =>
    have hfst : (add_sug_if_correct cw ff wf fwarn w out).1 = out2 := by
      rw [hadd]
    cases b with
    | true =>
      intro s hs
      rcases add_sug_mem cw ff wf fwarn w out s (by rw [hfst]; exact hs)
        with h | ⟨_, hres⟩
      · exact Or.inl h
      · exact Or.inr (Or.inl hres)
    | false =>
      obtain ⟨heq, _⟩ := add_sug_false cw ff wf fwarn w out
        (by rw [hadd])
      have hout2 : out2 = out := by rw [← hfst, heq]
      simp only []
      by_cases hsp : ¬ w.contains 32
      · rw [if_pos hsp, hout2]
        exact fun s hs => Or.inl hs
      · rw [if_neg hsp]
        by_cases hall : ((splitSp w).dropLast).all
            (fun p => (cw p).isSome)
        · rw [if_pos hall, hout2]
          intro s hs
          rcases List.mem_append.mp hs with h | h
          · exact Or.inl h
          · have hsw : s = w := List.mem_singleton.mp h
            refine Or.inr (Or.inr ?_)
            rw [hsw]
            have hc : w.contains 32 = true := by
              by_contra hc2
              exact hsp (by simpa using hc2)
            simpa using hc
        · rw [if_neg hall, hout2]
          exact fun s hs => Or.inl hs

/-- Membership after the hyphen push: old entries or a word containing
a hyphen. -/
theorem twoWordsHyphen_mem (tc : WStr) (backup : WStr) (i : Nat)
    (out : List WStr) :
    ∀ s ∈ twoWordsHyphen tc backup i out, s ∈ out ∨ 45 ∈ s := by
  unfold twoWordsHyphen
  split
  · split
    · exact fun s hs => Or.inl hs
    · intro s hs
      rcases List.mem_append.mp hs with h | h
      · exact Or.inl h
      · refine Or.inr ?_
        rw [List.mem_singleton.mp h]
        exact List.mem_append_right _ (List.mem_cons_self _ _)
  · exact fun s hs => Or.inl hs

/-- Membership after one split position: old entries or a word
containing a space or hyphen. -/
theorem twoWordsStep_mem (csw : WStr → Bool) (tc : WStr)
    (backup : WStr) (out : List WStr) (i : Nat) :
    ∀ s ∈ twoWordsStep csw tc backup out i,
      s ∈ out ∨ 32 ∈ s ∨ 45 ∈ s := by
  unfold twoWordsStep
  split
  · exact fun s hs => Or.inl hs
  · split
    · exact fun s hs => Or.inl hs
    · intro s hs
      rcases twoWordsHyphen_mem tc backup i _ s hs with h | h
      · split at h
        · exact Or.inl h
        · rcases List.mem_append.mp h with h2 | h2
          · exact Or.inl h2
          · refine Or.inr (Or.inl ?_)
            rw [List.mem_singleton.mp h2]
            exact List.mem_append_right _ (List.mem_cons_self _ _)
      · exact Or.inr (Or.inr h)

/-- Membership after `two_words_suggest`: old entries or a word
containing a space or hyphen. -/
theorem two_words_mem (csw : WStr → Bool) (tc : WStr) (w : WStr)
    (out : List WStr) :
    ∀ s ∈ two_words_suggest csw tc w out,
      s ∈ out ∨ 32 ∈ s ∨ 45 ∈ s := by
  unfold two_words_suggest
  split
  · exact fun s hs => Or.inl hs
  · refine foldl_preserves
      (fun l => ∀ s ∈ l, s ∈ out ∨ 32 ∈ s ∨ 45 ∈ s)
      (twoWordsStep csw tc w) ?_ (List.range (w.length - 1)) out
      (fun s hs => Or.inl hs)
    intro b a hb s hs
    rcases twoWordsStep_mem csw tc w b a s hs with h | h
    · exact hb s h
    · exact Or.inr h

/-- **C4.**  The suggestion list never contains the same string twice:
every push anywhere in `suggest_priv` goes through
`add_sug_if_correct` (membership check first), the split push of
`try_rep_suggestion` (reachable only when `add_sug_if_correct`
returned false, hence the word is absent), or the membership-guarded
pushes of `two_words_suggest`; so each operation preserves
duplicate-freeness, and any run of the pipeline from the empty output
is duplicate-free. -/
theorem claim_C4_suggestions_nodup (cw : WStr → Option (List Flag))
    (csw : WStr → Bool) (ff wf : Flag) (fwarn : Bool) (tc : WStr) :
    (∀ (out : List WStr), out.Nodup → ∀ op : SugOp,
      (SugOp.apply cw csw ff wf fwarn tc out op).Nodup) ∧
    ∀ ops : List SugOp,
      (ops.foldl (SugOp.apply cw csw ff wf fwarn tc) []).Nodup := by
  have hstep : ∀ (out : List WStr), out.Nodup → ∀ op : SugOp,
      (SugOp.apply cw csw ff wf fwarn tc out op).Nodup := by
    intro out h op
    cases op with
    | add w => exact add_sug_nodup cw ff wf fwarn w h
    | rep w => exact try_rep_nodup cw ff wf fwarn w h
    | two w => exact two_words_nodup csw tc w h
  exact ⟨hstep, fun ops => foldl_preserves List.Nodup _
    (fun b a hb => hstep b hb a) ops [] List.nodup_nil⟩

/-- Witness for C4 at a concrete state and operation. -/
theorem claim_C4_witness :
    ([[97]] : List WStr).Nodup ∧
    (SugOp.apply (fun _ => none) (fun _ => true) 1 2 false []
      [[97]] (SugOp.add [99])).Nodup :=
  ⟨by decide, (claim_C4_suggestions_nodup (fun _ => none)
    (fun _ => true) 1 2 false []).1 [[97]] (by decide)
    (SugOp.add [99])⟩

/-- `check_word(_, SMALL)` for the two-entry dictionary {"ab", "cd"}
with empty affix tables and no compounding configured: for such a
dictionary `check_word` reduces to plain dictionary lookup. -/
def cwAbCd (w : WStr) : Option (List Flag) :=
  if w = [97, 98] then some []
  else if w = [99, 100] then some []
  else none

/-- Counterexample to C3: on the dictionary {"ab", "cd"}, the
suggestor's `two_words_suggest` offers "ab cd" for the input "abcd" —
both halves pass `check_simple_word` — but "ab cd" itself does not
pass the spell check under SMALL casing. -/
theorem claim_C3_cex_two_words_unchecked :
    two_words_suggest (fun w => (cwAbCd w).isSome) []
        [97, 98, 99, 100] []
      = [[97, 98, 32, 99, 100]] ∧
    cwAbCd [97, 98, 32, 99, 100] = none := by
  constructor
  · decide
  · decide

/-- **C3 (amended).**  Every suggestion the pipeline produces either
passes `check_word(_, SMALL)` with neither `forbiddenword_flag` nor
(under `forbid_warn`) `warn_flag`, or is a two-part suggestion
containing a space or hyphen separator (from `try_rep_suggestion`'s
split path or from `two_words_suggest`), whose full string is not
itself checked. -/
theorem claim_C3_suggestion_checked_or_separated
    (cw : WStr → Option (List Flag)) (csw : WStr → Bool)
    (ff wf : Flag) (fwarn : Bool) (tc : WStr) (ops : List SugOp) :
    ∀ s ∈ ops.foldl (SugOp.apply cw csw ff wf fwarn tc) [],
      (∃ res, cw s = some res ∧ ff ∉ res ∧ ¬ (fwarn ∧ wf ∈ res)) ∨
      32 ∈ s ∨ 45 ∈ s := by
  refine foldl_preserves
    (fun l => ∀ s ∈ l,
      (∃ res, cw s = some res ∧ ff ∉ res ∧ ¬ (fwarn ∧ wf ∈ res)) ∨
      32 ∈ s ∨ 45 ∈ s)
    (SugOp.apply cw csw ff wf fwarn tc) ?_ ops []
    (fun s hs => absurd hs (List.not_mem_nil s))
  intro b op hb s hs
  cases op with
  | add w =>
    rcases add_sug_mem cw ff wf fwarn w b s hs with h | ⟨_, hres⟩
    · exact hb s h
    · exact Or.inl hres
  | rep w =>
    rcases try_rep_mem cw ff wf fwarn w b s hs with h | h | h
    · exact hb s h
    · exact Or.inl h
    · exact Or.inr (Or.inl h)
  | two w =>
    rcases two_words_mem csw tc w b s hs with h | h
    · exact hb s h
    · exact Or.inr h

/-- Witness for the amended C3 on the dictionary {"ab", "cd"}: the
suggestion "ab cd" produced for "abcd" falls under the separator
disjunct. -/
theorem claim_C3_witness :
    [97, 98, 32, 99, 100] ∈
      ([SugOp.two [97, 98, 99, 100]].foldl
        (SugOp.apply cwAbCd (fun w => (cwAbCd w).isSome) 1 2 false [])
        []) ∧
    ((∃ res, cwAbCd [97, 98, 32, 99, 100] = some res ∧ 1 ∉ res ∧
        ¬ (false ∧ 2 ∈ res)) ∨
      32 ∈ [97, 98, 32, 99, 100] ∨ 45 ∈ [97, 98, 32, 99, 100]) :=
  ⟨by decide, claim_C3_suggestion_checked_or_separated cwAbCd
    (fun w => (cwAbCd w).isSome) 1 2 false []
    [SugOp.two [97, 98, 99, 100]] [97, 98, 32, 99, 100] (by decide)⟩
